import Mathlib

/-!
Verification of the list-view drag-and-drop core of the block editor
(`packages/block-editor/src/components/list-view/index.js`).

The embedding models:
* the nested block tree (`Block`): a node record with a `clientId`, the
  transient drop flags, and an ordered list of child nodes;
* the three tree-mutation functions `removeItemFromTree`, `addItemToTree`
  and `addChildItemToTree`, transliterated from the source loops
  (the JS `for`-loop accumulators become extra arguments of the `Aux`
  functions, threaded in the same order as the loop iterations);
* the position registry (a JS object with finitely many integer keys,
  modelled as an association list) and `findFirstValidSibling`;
* the drag-tick handler `moveItem` and the drop-commit handler `dropItem`
  as state transformers over the component state that those closures
  read and write (working tree, pending last target);
* a second, address-tagged copy of the tree model (`JBlock`) in which
  every JS object allocation is given a fresh numeric address, used to
  reason about object identity and in-place mutation.
-/

/-- A block node as used by the list view: `clientId`, the transient
drop-target flags attached by the rendering layer, and `innerBlocks`. -/
inductive Block : Type where
  | mk (clientId : String) (dropContainer : Bool) (dropSibling : Bool)
      (innerBlocks : List Block)
deriving Repr

/-- The `clientId` field of a block. -/
def Block.clientId : Block → String
  | .mk c _ _ _ => c

/-- The `dropContainer` flag of a block. -/
def Block.dropContainer : Block → Bool
  | .mk _ d _ _ => d

/-- The `dropSibling` flag of a block. -/
def Block.dropSibling : Block → Bool
  | .mk _ _ s _ => s

/-- The `innerBlocks` field of a block. -/
def Block.innerBlocks : Block → List Block
  | .mk _ _ _ i => i

/-- Replace the `innerBlocks` of a block (the JS spread
`\x7b ...block, innerBlocks \x7d`). -/
def Block.withInner : Block → List Block → Block
  | .mk c d s _, l => .mk c d s l

theorem Block.clientId_mk (c : String) (d s : Bool) (i0 : List Block) :
    (Block.mk c d s i0).clientId = c := rfl

theorem Block.innerBlocks_mk (c : String) (d s : Bool) (i0 : List Block) :
    (Block.mk c d s i0).innerBlocks = i0 := rfl

theorem Block.withInner_mk (c : String) (d s : Bool) (i0 l : List Block) :
    (Block.mk c d s i0).withInner l = Block.mk c d s l := rfl

/-- All clientIds of a forest, in preorder. -/
def idsL : List Block → List String
  | [] => []
  | .mk c _ _ inner :: rest => (c :: idsL inner) ++ idsL rest

/-- All clientIds of a node and its subtree, in preorder. -/
def idsB : Block → List String
  | .mk c _ _ inner => c :: idsL inner

theorem idsB_mk (c : String) (d s : Bool) (i0 : List Block) :
    idsB (Block.mk c d s i0) = c :: idsL i0 := rfl

/-- All nodes of a forest, preorder. -/
def nodesL : List Block → List Block
  | [] => []
  | .mk c d s inner :: rest => (.mk c d s inner :: nodesL inner) ++ nodesL rest

/-- All nodes of a node's subtree (the node itself included), preorder. -/
def nodesB : Block → List Block
  | .mk c d s inner => .mk c d s inner :: nodesL inner

/-- Number of nodes carrying a given clientId in a forest. -/
def countId (t : List Block) (x : String) : Nat := (idsL t).count x

/-- First node with the given clientId, preorder depth-first. -/
def findNode (a : String) : List Block → Option Block
  | [] => none
  | .mk c d s inner :: rest =>
      if c = a then some (.mk c d s inner)
      else match findNode a inner with
        | some n => some n
        | none => findNode a rest

/--
`removeItemFromTree` from the source, lines 43-68.  The JS loop builds
`newTree` by pushing (copies of) the non-matching blocks and threads the
`removeParentId` accumulator across iterations: a match overwrites it with
the current `parentId`; a recursive call's non-empty result overwrites it
as well.  `removeAux id parentId tree rp` is that loop with `rp` the
accumulator value when the loop starts.
-/
def removeAux (id parentId : String) : List Block → String → List Block × String
  | [], rp => ([], rp)
  | .mk cid dc ds inner :: rest, rp =>
      if cid ≠ id then
        if inner.length > 0 then
          let c := removeAux id cid inner ""
          let r := removeAux id parentId rest (if c.2 ≠ "" then c.2 else rp)
          (.mk cid dc ds c.1 :: r.1, r.2)
        else
          let r := removeAux id parentId rest rp
          (.mk cid dc ds inner :: r.1, r.2)
      else
        removeAux id parentId rest parentId

/-- Entry point of `removeItemFromTree(tree, id)` (default `parentId` is
the empty string, initial accumulator empty). -/
def removeItemFromTree (tree : List Block) (id : String) : List Block × String :=
  removeAux id "" tree ""

/--
`addItemToTree` from the source, lines 70-112.  The loop state is
`(newTree, targetIndex, targetId)`, starting `([], -1, "")`; a match at the
current level pushes the anchor copy and the item copy (order selected by
`insertAfter`) and overwrites `targetIndex` with the item's position in
`newTree` and `targetId` with `parentId`; a recursive call on a
non-matching block's children combines with `max` on the index and
keeps the last non-empty target id.
-/
def addAux (id : String) (item : Block) (insertAfter : Bool) (parentId : String) :
    List Block → List Block → Int → String → List Block × Int × String
  | [], acc, ti, ts => (acc, ti, ts)
  | .mk cid dc ds inner :: rest, acc, ti, ts =>
      if cid = id then
        if insertAfter then
          addAux id item insertAfter parentId rest
            (acc ++ [.mk cid dc ds inner, item]) ((acc.length : Int) + 1) parentId
        else
          addAux id item insertAfter parentId rest
            (acc ++ [item, .mk cid dc ds inner]) (acc.length : Int) parentId
      else
        if inner.length > 0 then
          let c := addAux id item insertAfter cid inner [] (-1) ""
          addAux id item insertAfter parentId rest
            (acc ++ [.mk cid dc ds c.1]) (max ti c.2.1)
            (if c.2.2 ≠ "" then c.2.2 else ts)
        else
          addAux id item insertAfter parentId rest (acc ++ [.mk cid dc ds inner]) ti ts

/-- Entry point of `addItemToTree(tree, id, item, insertAfter)`. -/
def addItemToTree (tree : List Block) (id : String) (item : Block)
    (insertAfter : Bool) : List Block × Int × String :=
  addAux id item insertAfter "" tree [] (-1) ""

/--
`addChildItemToTree` from the source, lines 114-137: the matching block
gets the item prepended to its `innerBlocks` (in the source this is an
in-place field assignment; values are equal either way, see the
address-tagged model below for the aliasing behaviour), every other block
is copied, recursing into non-empty children.
-/
def addChildItemToTree (id : String) (item : Block) : List Block → List Block
  | [] => []
  | .mk cid dc ds inner :: rest =>
      if cid = id then
        .mk cid dc ds (item :: inner) :: addChildItemToTree id item rest
      else
        if inner.length > 0 then
          .mk cid dc ds (addChildItemToTree id item inner) ::
            addChildItemToTree id item rest
        else
          .mk cid dc ds inner :: addChildItemToTree id item rest

/-- One entry of the position registry: the payload written by
`setPosition(listPosition, ...)` for a rendered row. -/
structure DropPosition where
  clientId : String
  dropContainer : Bool
  dropSibling : Bool
  parentId : String
deriving Repr, DecidableEq

/-- The `positions` object: a JS object keyed by integer list positions,
hence a finite map, modelled as an association list (first key match
wins on lookup). -/
abbrev Registry := List (Int × DropPosition)

/-- `positions[i]` (`undefined` becomes `none`). -/
def getPos (r : Registry) (i : Int) : Option DropPosition :=
  (r.find? fun e => e.1 == i).map fun e => e.2

/-- Number of registry entries whose key lies at or beyond `idx` in the
walking direction; the measure that makes the `while` loop of
`findFirstValidSibling` terminate (a JS object has finitely many keys). -/
def dirKeys (r : Registry) (inc : Bool) (idx : Int) : Nat :=
  (r.filter fun e => if inc then idx ≤ e.1 else e.1 ≤ idx).length

theorem length_filter_mono {α : Type} {p q : α → Bool} {l : List α}
    (h : ∀ x ∈ l, q x = true → p x = true) :
    (l.filter q).length ≤ (l.filter p).length := by
  induction l with
  | nil => simp
  | cons a t ih =>
      have ht : ∀ x ∈ t, q x = true → p x = true := fun x hx => h x (by simp [hx])
      by_cases hq : q a = true
      · have hp : p a = true := h a (by simp) hq
        simp [List.filter, hq, hp]
        exact ih ht
      · simp only [Bool.not_eq_true] at hq
        by_cases hp : p a = true
        · simp [List.filter, hq, hp]
          exact Nat.le_succ_of_le (ih ht)
        · simp only [Bool.not_eq_true] at hp
          simp [List.filter, hq, hp]
          exact ih ht

theorem length_filter_lt {α : Type} {p q : α → Bool} {l : List α}
    (h : ∀ x ∈ l, q x = true → p x = true) {x : α} (hx : x ∈ l)
    (hpx : p x = true) (hqx : q x = false) :
    (l.filter q).length < (l.filter p).length := by
  induction l with
  | nil => cases hx
  | cons a t ih =>
      have ht : ∀ y ∈ t, q y = true → p y = true := fun y hy => h y (by simp [hy])
      rcases List.mem_cons.mp hx with rfl | hxt
      · have hqa : q x = false := hqx
        simp [List.filter, hqa, hpx]
        exact Nat.lt_succ_of_le (length_filter_mono ht)
      · by_cases hq : q a = true
        · have hp : p a = true := h a (by simp) hq
          simp [List.filter, hq, hp]
          exact ih ht hxt
        · simp only [Bool.not_eq_true] at hq
          by_cases hp : p a = true
          · simp [List.filter, hq, hp]
            exact Nat.lt_succ_of_lt (ih ht hxt)
          · simp only [Bool.not_eq_true] at hp
            simp [List.filter, hq, hp]
            exact ih ht hxt

theorem dirKeys_step {r : Registry} {inc : Bool} {idx : Int} {p : DropPosition}
    (h : getPos r idx = some p) :
    dirKeys r inc (idx + if inc then 1 else -1) < dirKeys r inc idx := by
  have h' : ∃ e, r.find? (fun e => e.1 == idx) = some e := by
    cases hf : r.find? (fun e => e.1 == idx) with
    | none => simp [getPos, hf] at h
    | some e => exact ⟨e, rfl⟩
  obtain ⟨e, he⟩ := h'
  have hmem : e ∈ r := List.mem_of_find?_eq_some he
  have hkey : e.1 = idx := by
    have := List.find?_some he
    simpa using this
  apply length_filter_lt (x := e) _ hmem
  · cases inc <;> simp [hkey]
  · cases inc <;> simp [hkey]
  · intro y _ hy
    cases inc <;> simp at hy ⊢ <;> omega

/--
`findFirstValidSibling` from the source, lines 142-157: the `while` loop,
walking from one step beyond the current position in the direction of the
velocity sign, skipping entries that are not `dropSibling` or do not share
the current entry's `parentId`, and stopping with `[null, null]` at the
first missing entry.
-/
def siblingWalk (r : Registry) (pid : String) (inc : Bool) (idx : Int) :
    Option (DropPosition × Int) :=
  match h : getPos r idx with
  | none => none
  | some position =>
      if position.dropSibling = true ∧ position.parentId = pid then
        some (position, idx)
      else siblingWalk r pid inc (idx + if inc then 1 else -1)
termination_by dirKeys r inc idx
decreasing_by exact dirKeys_step h

/-- Entry point of `findFirstValidSibling(positions, current, velocity)`.
If the entry at `current` is itself missing the source faults on reading
`currentPosition.parentId` as soon as a `dropSibling` entry is met (and
otherwise returns `[null, null]`); the claims under verification only
concern a populated current entry, and this embedding returns no result
in that case. -/
def findFirstValidSibling (r : Registry) (current : Int) (velocity : ℚ) :
    Option (DropPosition × Int) :=
  match getPos r current with
  | none => none
  | some currentPosition =>
      siblingWalk r currentPosition.parentId (decide (velocity > 0))
        (current + if velocity > 0 then 1 else -1)

/-- The pending target held in `lastTarget.current`. -/
structure LastTarget where
  clientId : String
  originalParent : String
  targetId : String
  targetIndex : Int
deriving Repr, DecidableEq

/-- One invocation of the external store's `moveBlocksToPosition`. -/
structure MoveCall where
  clientIds : List String
  fromRootClientId : String
  toRootClientId : String
  index : Int
deriving Repr, DecidableEq

/-- The component state read and written by a `moveItem` drag tick: the
authoritative tree (`clientIdsTree`, read only), the working tree
(`setTree`), and the pending target (`lastTarget`). -/
structure DragState where
  clientIdsTree : List Block
  tree : List Block
  lastTarget : Option LastTarget

/--
`moveItem` from the source, lines 268-423, as a state transformer.  The
inputs of a tick are the dragged `block`, the vertical and horizontal
translates, the row's flattened `listPosition` and the velocity sample
`v` (`velocity?.get() ?? 0`).  Translates and velocity are rationals
(JS numbers used only through sign tests, comparisons and one `ceil`).
`direction === UP` is `¬v > 0` (reached only when `v ≠ 0`).  The
registry `positions` is only read, never written, by a tick.
-/
def moveItem (positions : Registry) (s : DragState) (block : Block)
    (translate translateX : ℚ) (listPosition : Int) (v : ℚ) : DragState :=
  let clientId := block.clientId
  if v = 0 then s
  else if (getPos positions (listPosition + 1) = none ∧ ¬v > 0 ∧ translate > 0) ∨
      (listPosition = 0 ∧ v > 0 ∧ translate < 0) then s
  else if (v > 0 ∧ translate < 0) ∨ (¬v > 0 ∧ translate > 0) then s
  else if |translate| < 36 / 2 then s
  else if |translateX| > 20 then
    let steps : Int := Int.ceil |translate / 36|
    let nextIndex : Int := if ¬v > 0 then listPosition - steps else listPosition + steps
    match getPos positions nextIndex with
    | none => s
    | some targetPosition =>
        if translateX < 0 then
          if targetPosition.parentId = "" ∨ targetPosition.dropSibling = true then
            let rm := removeItemFromTree s.clientIdsTree clientId
            let ad := addItemToTree rm.1 targetPosition.clientId block (decide (v > 0))
            { s with tree := ad.1,
                     lastTarget := some ⟨clientId, rm.2, ad.2.2, ad.2.1⟩ }
          else if targetPosition.dropContainer = true then
            let rm := removeItemFromTree s.clientIdsTree clientId
            { s with tree := addChildItemToTree targetPosition.clientId block rm.1,
                     lastTarget := some ⟨clientId, rm.2, targetPosition.clientId, 0⟩ }
          else s
        else if translateX > 0 then
          if targetPosition.dropContainer = true then
            let rm := removeItemFromTree s.clientIdsTree clientId
            { s with tree := addChildItemToTree targetPosition.clientId block rm.1,
                     lastTarget := some ⟨clientId, rm.2, targetPosition.clientId, 0⟩ }
          else s
        else s
  else
    match findFirstValidSibling positions listPosition v with
    | some (targetPosition, nextIndex) =>
        if |translate| > 36 * |((listPosition - nextIndex : Int) : ℚ)| / 2 then
          let rm := removeItemFromTree s.clientIdsTree clientId
          let ad := addItemToTree rm.1 targetPosition.clientId block (decide (v > 0))
          { s with tree := ad.1,
                   lastTarget := some ⟨clientId, rm.2, ad.2.2, ad.2.1⟩ }
        else s
    | none => s

/--
`dropItem` from the source, lines 244-266, as a transformer of the pending
target that also reports the calls made to the external store's
`moveBlocksToPosition`: with no pending target it returns immediately
(no call); otherwise it clears `lastTarget.current` and calls
`moveBlocksToPosition([clientId], originalParent, targetId, targetIndex)`
exactly once.
-/
def dropItem (lastTarget : Option LastTarget) : Option LastTarget × List MoveCall :=
  match lastTarget with
  | none => (none, [])
  | some lt =>
      (none, [⟨[lt.clientId], lt.originalParent, lt.targetId, lt.targetIndex⟩])

/-- Navigate a path of child indices down the tree: `ctxAt t path`
returns the parent id and the sibling list designated by `path`
(the empty path designates the root list, whose parent id is the
empty string; `i :: p` descends into the `innerBlocks` of the
`i`-th element). -/
def ctxAt : List Block → List Nat → Option (String × List Block)
  | t, [] => some ("", t)
  | t, i :: p =>
      (t.get? i).bind fun b =>
        if p = [] then some (b.clientId, b.innerBlocks) else ctxAt b.innerBlocks p

/-- Replace the sibling list designated by `path` (see `ctxAt`). -/
def setCtxAt : List Block → List Nat → List Block → Option (List Block)
  | _, [], newSib => some newSib
  | t, i :: p, newSib =>
      (t.get? i).bind fun b =>
        if p = [] then some (t.set i (b.withInner newSib))
        else (setCtxAt b.innerBlocks p newSib).map fun inner2 =>
          t.set i (b.withInner inner2)

/--
Address-tagged block node.  A JS block is a heap object; `addr` is its
identity.  The three tree functions only ever allocate fresh objects
(the spreads) or write one field of an existing object (the
`block.innerBlocks = [item, ...]` assignment in `addChildItemToTree`),
and never mutate an array in place, so a model that tags each object
value with its address captures the aliasing behaviour: an output node
carrying the address of an input node but different field values can
only arise from an in-place field write visible through the input
reference.
-/
inductive JBlock : Type where
  | mk (addr : Nat) (clientId : String) (dropContainer : Bool) (dropSibling : Bool)
      (innerBlocks : List JBlock)
deriving Repr

/-- The address (object identity) of a tagged node. -/
def JBlock.addr : JBlock → Nat
  | .mk a _ _ _ _ => a

/-- The `clientId` of a tagged node. -/
def JBlock.clientId : JBlock → String
  | .mk _ c _ _ _ => c

/-- The `dropContainer` flag of a tagged node. -/
def JBlock.dropContainer : JBlock → Bool
  | .mk _ _ d _ _ => d

/-- The `dropSibling` flag of a tagged node. -/
def JBlock.dropSibling : JBlock → Bool
  | .mk _ _ _ s _ => s

/-- The `innerBlocks` of a tagged node. -/
def JBlock.innerBlocks : JBlock → List JBlock
  | .mk _ _ _ _ i => i

/-- All objects of a tagged forest, preorder. -/
def jnodesL : List JBlock → List JBlock
  | [] => []
  | .mk a c d s inner :: rest => (.mk a c d s inner :: jnodesL inner) ++ jnodesL rest

/-- All objects of a tagged node's subtree (itself included). -/
def jnodesB : JBlock → List JBlock
  | .mk a c d s inner => .mk a c d s inner :: jnodesL inner

/--
`removeItemFromTree` over tagged nodes, threading the allocation counter
`c`: every JS spread allocates a fresh object (children are rebuilt
before the copy of their parent is allocated, matching evaluation
order); the matching node allocates nothing.  Returns
`(newTree, removeParentId, counter)`.
-/
def removeJAux (id parentId : String) : List JBlock → String → Nat →
    List JBlock × String × Nat
  | [], rp, c => ([], rp, c)
  | .mk _ cid dc ds inner :: rest, rp, c =>
      if cid ≠ id then
        if inner.length > 0 then
          let ci := removeJAux id cid inner "" c
          let r := removeJAux id parentId rest
            (if ci.2.1 ≠ "" then ci.2.1 else rp) (ci.2.2 + 1)
          (.mk ci.2.2 cid dc ds ci.1 :: r.1, r.2)
        else
          let r := removeJAux id parentId rest rp (c + 1)
          (.mk c cid dc ds inner :: r.1, r.2)
      else
        removeJAux id parentId rest parentId c

/-- Entry point of the tagged `removeItemFromTree`. -/
def removeJ (tree : List JBlock) (id : String) (c : Nat) :
    List JBlock × String × Nat :=
  removeJAux id "" tree "" c

/--
`addItemToTree` over tagged nodes: the match pushes a shallow copy of the
anchor and a shallow copy of the item (fresh addresses, children
shared); non-matching blocks with children get a fresh object around the
rebuilt child list; leaves get a shallow copy.  Returns
`(newTree, targetIndex, targetId, counter)`.
-/
def addJAux (id : String) (item : JBlock) (insertAfter : Bool) (parentId : String) :
    List JBlock → List JBlock → Int → String → Nat →
    List JBlock × Int × String × Nat
  | [], acc, ti, ts, c => (acc, ti, ts, c)
  | .mk _ cid dc ds inner :: rest, acc, ti, ts, c =>
      if cid = id then
        if insertAfter then
          addJAux id item insertAfter parentId rest
            (acc ++ [.mk c cid dc ds inner,
              .mk (c + 1) item.clientId item.dropContainer item.dropSibling
                item.innerBlocks])
            ((acc.length : Int) + 1) parentId (c + 2)
        else
          addJAux id item insertAfter parentId rest
            (acc ++ [.mk c item.clientId item.dropContainer item.dropSibling
                item.innerBlocks,
              .mk (c + 1) cid dc ds inner])
            (acc.length : Int) parentId (c + 2)
      else
        if inner.length > 0 then
          let ci := addJAux id item insertAfter cid inner [] (-1) "" c
          addJAux id item insertAfter parentId rest
            (acc ++ [.mk ci.2.2.2 cid dc ds ci.1]) (max ti ci.2.1)
            (if ci.2.2.1 ≠ "" then ci.2.2.1 else ts) (ci.2.2.2 + 1)
        else
          addJAux id item insertAfter parentId rest
            (acc ++ [.mk c cid dc ds inner]) ti ts (c + 1)

/-- Entry point of the tagged `addItemToTree`. -/
def addJ (tree : List JBlock) (id : String) (item : JBlock) (insertAfter : Bool)
    (c : Nat) : List JBlock × Int × String × Nat :=
  addJAux id item insertAfter "" tree [] (-1) "" c

/--
`addChildItemToTree` over tagged nodes.  The matching branch of the
source mutates the block in place (`block.innerBlocks = [item,
...block.innerBlocks]`) and pushes the same object: the output node
keeps the input node's address with a different `innerBlocks` field,
and the item itself (no copy) becomes the first child.  All other
branches allocate fresh objects.
-/
def addChildJ (id : String) (item : JBlock) : List JBlock → Nat →
    List JBlock × Nat
  | [], c => ([], c)
  | .mk a cid dc ds inner :: rest, c =>
      if cid = id then
        let r := addChildJ id item rest c
        (.mk a cid dc ds (item :: inner) :: r.1, r.2)
      else
        if inner.length > 0 then
          let ci := addChildJ id item inner c
          let r := addChildJ id item rest (ci.2 + 1)
          (.mk ci.2 cid dc ds ci.1 :: r.1, r.2)
        else
          let r := addChildJ id item rest (c + 1)
          (.mk c cid dc ds inner :: r.1, r.2)

/--
Object preservation: every object of `out` that carries the address of an
object of `inp` is that object, unchanged in every field.  A function
whose output satisfies this against its input did not mutate any input
object it returns; `addChildItemToTree`'s matching branch violates it.
-/
def PreservesNodes (inp out : List JBlock) : Prop :=
  ∀ n' ∈ out, ∀ n ∈ inp, n'.addr = n.addr → n' = n

/-- Induction over forests of blocks: step case gets hypotheses for the
head's children and for the tail. -/
theorem forestInd (P : List Block → Prop) (h0 : P [])
    (h1 : ∀ c d s inner rest, P inner → P rest → P (Block.mk c d s inner :: rest)) :
    ∀ t, P t
  | [] => h0
  | .mk c d s inner :: rest =>
      h1 c d s inner rest (forestInd P h0 h1 inner) (forestInd P h0 h1 rest)

theorem idsL_cons (b : Block) (rest : List Block) :
    idsL (b :: rest) = idsB b ++ idsL rest := by
  cases b
  simp [idsL, idsB]

theorem nodesL_cons (b : Block) (rest : List Block) :
    nodesL (b :: rest) = nodesB b ++ nodesL rest := by
  cases b
  simp [nodesL, nodesB]

theorem idsL_append (t u : List Block) : idsL (t ++ u) = idsL t ++ idsL u := by
  induction t using forestInd with
  | h0 => simp [idsL]
  | h1 c d s inner rest _ ih => simp [idsL, ih]

theorem idsL_map_nodesL (t : List Block) :
    idsL t = (nodesL t).map Block.clientId := by
  induction t using forestInd with
  | h0 => simp [idsL, nodesL]
  | h1 c d s inner rest ih1 ih2 =>
      simp [idsL, nodesL, ih1, ih2, Block.clientId]

theorem idsB_subset_of_mem {b : Block} {t : List Block} (h : b ∈ t) :
    idsB b ⊆ idsL t := by
  induction t with
  | nil => cases h
  | cons a rest ih =>
      rcases List.mem_cons.mp h with rfl | h2
      · rw [idsL_cons]
        exact List.subset_append_left _ _
      · rw [idsL_cons]
        exact (ih h2).trans (List.subset_append_right _ _)

theorem clientId_mem_idsL {b : Block} {t : List Block} (h : b ∈ t) :
    b.clientId ∈ idsL t := by
  apply idsB_subset_of_mem h
  cases b
  simp [idsB, Block.clientId]

/-- `removeItemFromTree` does not touch a forest that does not contain the
id: it returns the input (values are copied, but copies are equal) and
leaves the `removeParentId` accumulator alone. -/
theorem removeAux_notMem {x : String} {t : List Block} (hx : x ∉ idsL t) :
    ∀ p rp, removeAux x p t rp = (t, rp) := by
  induction t using forestInd with
  | h0 => intro p rp; simp [removeAux]
  | h1 c d s inner rest ih1 ih2 =>
      intro p rp
      rw [idsL_cons] at hx
      simp only [idsB, List.cons_append, List.mem_cons, List.mem_append] at hx
      push_neg at hx
      obtain ⟨hcx, hinner, hrest⟩ := hx
      have h1 : removeAux x c inner "" = (inner, "") := ih1 hinner c ""
      have h2 : removeAux x p rest rp = (rest, rp) := ih2 hrest p rp
      by_cases hlen : inner.length > 0
      · simp [removeAux, Ne.symm hcx, hlen, h1, h2]
      · simp [removeAux, Ne.symm hcx, hlen, h2]

/-- Removing a node that sits at the current level: the node is dropped,
its siblings are kept in order, and `removeParentId` becomes the
`parentId` of this level. -/
theorem removeAux_root {x : String} :
    ∀ (pre : List Block) (n : Block) (post : List Block), n.clientId = x →
      x ∉ idsL pre → x ∉ idsL post →
      ∀ p rp, removeAux x p (pre ++ n :: post) rp = (pre ++ post, p) := by
  intro pre
  induction pre using forestInd with
  | h0 =>
      intro n post hnx hpre hpost p rp
      cases n with
      | mk c d s inner =>
          have hcx : c = x := hnx
          simp [removeAux, hcx, removeAux_notMem hpost]
  | h1 c d s inner rest ih1 ih2 =>
      intro n post hnx hpre hpost p rp
      rw [idsL_cons] at hpre
      simp only [idsB, List.cons_append, List.mem_cons, List.mem_append] at hpre
      push_neg at hpre
      obtain ⟨hcx, hinner, hrest⟩ := hpre
      have hin : removeAux x c inner "" = (inner, "") := removeAux_notMem hinner c ""
      have hstep := ih2 n post hnx hrest hpost p rp
      by_cases hlen : inner.length > 0
      · simp [removeAux, Ne.symm hcx, hlen, hin, hstep]
      · simp [removeAux, Ne.symm hcx, hlen, hstep]

theorem set_append_cons {α : Type} (u : List α) (b : α) (w : List α) (v : α) :
    (u ++ b :: w).set u.length v = u ++ v :: w := by
  induction u with
  | nil => simp
  | cons a u ih => simp [List.set, ih]

/-- Removing a node that sits strictly inside the subtree of the element
`〚u.length〛` of the current level: that element is rebuilt around the
recursive result and the recursive `removeParentId` is passed through. -/
theorem removeAux_deep {x c2 : String} {d2 s2 : Bool} {inner inner2 : List Block}
    {rp2 : String} (hcx : c2 ≠ x) (hne : inner ≠ [])
    (hrec : removeAux x c2 inner "" = (inner2, rp2)) :
    ∀ (u : List Block) (w : List Block), x ∉ idsL u → x ∉ idsL w →
      ∀ p, removeAux x p (u ++ Block.mk c2 d2 s2 inner :: w) "" =
        (u ++ Block.mk c2 d2 s2 inner2 :: w, rp2) := by
  intro u
  induction u using forestInd with
  | h0 =>
      intro w _ hw p
      have hlen : inner.length > 0 := by
        cases inner
        · exact absurd rfl hne
        · simp
      by_cases hrp : rp2 = ""
      · subst hrp
        simp [removeAux, hcx, hlen, hrec, removeAux_notMem hw]
      · simp [removeAux, hcx, hlen, hrec, hrp, removeAux_notMem hw]
  | h1 c d s inner0 rest ih1 ih2 =>
      intro w hu hw p
      rw [idsL_cons] at hu
      simp only [idsB, List.cons_append, List.mem_cons, List.mem_append] at hu
      push_neg at hu
      obtain ⟨hc0, hinner0, hrest⟩ := hu
      have hin : removeAux x c inner0 "" = (inner0, "") := removeAux_notMem hinner0 c ""
      have hstep := ih2 w hrest hw p
      by_cases hlen : inner0.length > 0
      · simp [removeAux, Ne.symm hc0, hlen, hin, hstep]
      · simp [removeAux, Ne.symm hc0, hlen, hstep]

theorem ctxAt_ids_subset :
    ∀ (path : List Nat) (t : List Block) {pid : String} {sib : List Block},
      ctxAt t path = some (pid, sib) → idsL sib ⊆ idsL t := by
  intro path
  induction path with
  | nil =>
      intro t pid sib h
      simp [ctxAt] at h
      obtain ⟨-, rfl⟩ := h
      exact List.Subset.refl _
  | cons i p ih =>
      intro t pid sib h
      simp only [ctxAt] at h
      cases hg : t.get? i with
      | none => rw [hg] at h; simp at h
      | some b =>
          rw [hg] at h
          simp only [Option.some_bind] at h
          cases b with
          | mk c d s inner =>
              simp only [Block.clientId, Block.innerBlocks] at h
              have hmem : (Block.mk c d s inner) ∈ t := List.get?_mem hg
              have hsub : idsL inner ⊆ idsL t := by
                have hb := idsB_subset_of_mem hmem
                intro y hy
                exact hb (by simp [idsB, hy])
              by_cases hp : p = []
              · subst hp
                simp only [reduceIte, Option.some_inj, Prod.mk.injEq] at h
                obtain ⟨-, hs⟩ := h
                rw [← hs]
                exact hsub
              · simp only [hp, reduceIte] at h
                exact (ih inner h).trans hsub

/-- Main characterisation of `removeItemFromTree` on a tree with unique
clientIds: removing the id of the node at index `j` of the sibling list
designated by `path` erases exactly that node (with its subtree) from
that sibling list and reports that level's parent id. -/
theorem removeAux_ctx :
    ∀ (path : List Nat) (t : List Block) (pid : String) (sib : List Block)
      (j : Nat) (n : Block) (x : String),
      (idsL t).Nodup → ctxAt t path = some (pid, sib) → sib.get? j = some n →
      n.clientId = x →
      ∀ p, ∃ t', setCtxAt t path (sib.eraseIdx j) = some t' ∧
        removeAux x p t "" = (t', if path = [] then p else pid) := by
  intro path
  induction path with
  | nil =>
      intro t pid sib j n x hnd hctx hget hx p
      simp only [ctxAt, Option.some_inj, Prod.mk.injEq] at hctx
      obtain ⟨hpid, rfl⟩ := hctx
      have hj : j < t.length := (List.get?_eq_some.mp hget).1
      have hnj : t[j] = n := by
        obtain ⟨h2, heq⟩ := List.get?_eq_some.mp hget
        simpa using heq
      have hdec : t = t.take j ++ n :: t.drop (j + 1) := by
        conv_lhs => rw [← List.take_append_drop j t]
        rw [List.drop_eq_getElem_cons hj, hnj]
      have hids : idsL t = idsL (t.take j) ++ (idsB n ++ idsL (t.drop (j + 1))) := by
        conv_lhs => rw [hdec]
        rw [idsL_append, idsL_cons]
      rw [hids] at hnd
      have hdisj1 := (List.nodup_append.mp hnd).2.2
      have hnd2 := (List.nodup_append.mp hnd).2.1
      have hdisj2 := (List.nodup_append.mp hnd2).2.2
      have hxn : x ∈ idsB n := by
        cases n with
        | mk c d s inner =>
            have : c = x := hx
            simp [idsB, this]
      have hxu : x ∉ idsL (t.take j) := fun hc => hdisj1 hc (by simp [hxn])
      have hxw : x ∉ idsL (t.drop (j + 1)) := fun hc => hdisj2 hxn hc
      refine ⟨t.eraseIdx j, by simp [setCtxAt], ?_⟩
      rw [List.eraseIdx_eq_take_drop_succ]
      simp only [List.cons_ne_self, if_pos rfl, reduceIte]
      conv_lhs => rw [hdec]
      exact removeAux_root _ n _ hx hxu hxw p ""
  | cons i p ih =>
      intro t pid sib j n x hnd hctx hget hx P
      simp only [ctxAt] at hctx
      cases hg : t.get? i with
      | none => rw [hg] at hctx; simp at hctx
      | some b =>
          rw [hg] at hctx
          simp only [Option.some_bind] at hctx
          cases b with
          | mk c2 d2 s2 inner =>
              simp only [Block.clientId, Block.innerBlocks] at hctx
              have hi : i < t.length := (List.get?_eq_some.mp hg).1
              have hbi : t[i] = Block.mk c2 d2 s2 inner := by
                obtain ⟨h2, heq⟩ := List.get?_eq_some.mp hg
                simpa using heq
              have hdec : t = t.take i ++ Block.mk c2 d2 s2 inner :: t.drop (i + 1) := by
                conv_lhs => rw [← List.take_append_drop i t]
                rw [List.drop_eq_getElem_cons hi, hbi]
              have hids : idsL t =
                  idsL (t.take i) ++ ((c2 :: idsL inner) ++ idsL (t.drop (i + 1))) := by
                conv_lhs => rw [hdec]
                rw [idsL_append, idsL_cons]
                simp [idsB]
              have hxinner : x ∈ idsL inner := by
                by_cases hp : p = []
                · subst hp
                  simp only [reduceIte, Option.some_inj, Prod.mk.injEq] at hctx
                  obtain ⟨-, hsib⟩ := hctx
                  have hmem : n ∈ sib := List.get?_mem hget
                  rw [hsib]
                  subst hx
                  exact clientId_mem_idsL hmem
                · simp only [hp, reduceIte] at hctx
                  apply ctxAt_ids_subset p inner hctx
                  have hmem : n ∈ sib := List.get?_mem hget
                  subst hx
                  exact clientId_mem_idsL hmem
              rw [hids] at hnd
              obtain ⟨hndu, hndrest, hdisj1⟩ := List.nodup_append.mp hnd
              obtain ⟨hndmid, hndw, hdisj2⟩ := List.nodup_append.mp hndrest
              have hxmid : x ∈ c2 :: idsL inner := by simp [hxinner]
              have hxu : x ∉ idsL (t.take i) := fun hc => hdisj1 hc
                (by simp only [List.mem_cons, List.mem_append] at hxmid ⊢; tauto)
              have hxw : x ∉ idsL (t.drop (i + 1)) := fun hc => hdisj2 hxmid hc
              have hc2x : c2 ≠ x := by
                intro hc
                subst hc
                exact (List.nodup_cons.mp hndmid).1 hxinner
              have hinnerne : inner ≠ [] := by
                intro hc
                rw [hc] at hxinner
                simp [idsL] at hxinner
              have hndinner : (idsL inner).Nodup := (List.nodup_cons.mp hndmid).2
              by_cases hp : p = []
              · subst hp
                simp only [reduceIte, Option.some_inj, Prod.mk.injEq] at hctx
                obtain ⟨hpid, hsib⟩ := hctx
                subst hsib
                have hj : j < inner.length := (List.get?_eq_some.mp hget).1
                have hnj : inner[j] = n := by
                  obtain ⟨h2, heq⟩ := List.get?_eq_some.mp hget
                  simpa using heq
                have hdeci : inner = inner.take j ++ n :: inner.drop (j + 1) := by
                  conv_lhs => rw [← List.take_append_drop j inner]
                  rw [List.drop_eq_getElem_cons hj, hnj]
                have hidsi : idsL inner =
                    idsL (inner.take j) ++ (idsB n ++ idsL (inner.drop (j + 1))) := by
                  conv_lhs => rw [hdeci]
                  rw [idsL_append, idsL_cons]
                obtain ⟨hA, hBC, hD1⟩ := List.nodup_append.mp (hidsi ▸ hndinner)
                have hD2 := (List.nodup_append.mp hBC).2.2
                have hxn : x ∈ idsB n := by
                  cases n with
                  | mk c d s i0 =>
                      have hcx : c = x := hx
                      simp [idsB, hcx]
                have hxp : x ∉ idsL (inner.take j) := fun hc => hD1 hc (by simp [hxn])
                have hxq : x ∉ idsL (inner.drop (j + 1)) := fun hc => hD2 hxn hc
                have hrec : removeAux x c2 inner "" = (inner.eraseIdx j, c2) := by
                  rw [List.eraseIdx_eq_take_drop_succ]
                  conv_lhs => rw [hdeci]
                  exact removeAux_root _ n _ hx hxp hxq c2 ""
                have hmain := @removeAux_deep x c2 d2 s2 inner (inner.eraseIdx j) c2
                  hc2x hinnerne hrec (t.take i) (t.drop (i + 1)) hxu hxw P
                refine ⟨t.take i ++ Block.mk c2 d2 s2 (inner.eraseIdx j) :: t.drop (i + 1),
                  ?_, ?_⟩
                · simp only [setCtxAt, hg, Option.some_bind, reduceIte, Block.withInner]
                  rw [List.set_eq_take_cons_drop _ hi]
                · conv_lhs => rw [hdec]
                  rw [hmain]
                  simp [hpid]
              · simp only [hp, reduceIte] at hctx
                obtain ⟨inner2, hsetI, hrecI⟩ :=
                  ih inner pid sib j n x hndinner hctx hget hx c2
                rw [if_neg hp] at hrecI
                have hmain := @removeAux_deep x c2 d2 s2 inner inner2 pid
                  hc2x hinnerne hrecI (t.take i) (t.drop (i + 1)) hxu hxw P
                refine ⟨t.take i ++ Block.mk c2 d2 s2 inner2 :: t.drop (i + 1), ?_, ?_⟩
                · simp only [setCtxAt, hg, hp, Option.some_bind, reduceIte,
                    Block.innerBlocks, Block.withInner, hsetI, Option.map_some,
                    Option.map_some']
                  rw [List.set_eq_take_cons_drop _ hi]
                · conv_lhs => rw [hdec]
                  rw [hmain]
                  simp

/--
C8: for every tree `T` and every id not present in `T`,
`removeItemFromTree` returns a tree deep-equal to `T` (the copies it
builds are equal as values) and an empty removed-parent id.
-/
theorem c8_remove_absent_id_is_noop (t : List Block) (x : String)
    (hx : x ∉ idsL t) : removeItemFromTree t x = (t, "") := by
  rw [removeItemFromTree, removeAux_notMem hx]

theorem c8_remove_absent_id_is_noop_witness :
    ("zz" ∉ idsL [Block.mk "a" false false [Block.mk "b" false false []],
        Block.mk "c" false false []]) ∧
    removeItemFromTree [Block.mk "a" false false [Block.mk "b" false false []],
        Block.mk "c" false false []] "zz" =
      ([Block.mk "a" false false [Block.mk "b" false false []],
        Block.mk "c" false false []], "") :=
  ⟨by simp [idsL], c8_remove_absent_id_is_noop _ _ (by simp [idsL])⟩

/--
C7: on a tree with unique clientIds, removing the id of the node `n`
found at index `j` of the sibling list `sib` designated by `path` (so
`pid` is that node's immediate parent's clientId, the empty string at
the root level) yields exactly the tree with that node and its whole
subtree erased from that sibling list — everything else is preserved in
order — together with `pid` as the removed-parent id.
-/
theorem c7_remove_erases_node_at_level (t : List Block) (path : List Nat)
    (pid : String) (sib : List Block) (j : Nat) (n : Block) (x : String)
    (hnd : (idsL t).Nodup) (hctx : ctxAt t path = some (pid, sib))
    (hget : sib.get? j = some n) (hx : n.clientId = x) :
    ∃ t', setCtxAt t path (sib.eraseIdx j) = some t' ∧
      removeItemFromTree t x = (t', pid) := by
  obtain ⟨t', hset, hrem⟩ := removeAux_ctx path t pid sib j n x hnd hctx hget hx ""
  refine ⟨t', hset, ?_⟩
  rw [removeItemFromTree, hrem]
  by_cases hp : path = []
  · subst hp
    simp only [ctxAt, Option.some_inj, Prod.mk.injEq] at hctx
    obtain ⟨hpid, -⟩ := hctx
    simp [← hpid]
  · simp [hp]

theorem c7_remove_erases_node_at_level_witness :
    ((idsL [Block.mk "a" false false [Block.mk "b" false false
        [Block.mk "d" false false []]], Block.mk "c" false false []]).Nodup) ∧
    (ctxAt [Block.mk "a" false false [Block.mk "b" false false
        [Block.mk "d" false false []]], Block.mk "c" false false []] [0] =
      some ("a", [Block.mk "b" false false [Block.mk "d" false false []]])) ∧
    (∃ t', setCtxAt [Block.mk "a" false false [Block.mk "b" false false
          [Block.mk "d" false false []]], Block.mk "c" false false []] [0]
        ([Block.mk "b" false false [Block.mk "d" false false []]].eraseIdx 0) =
        some t' ∧
      removeItemFromTree [Block.mk "a" false false [Block.mk "b" false false
          [Block.mk "d" false false []]], Block.mk "c" false false []] "b" =
        (t', "a")) :=
  ⟨by simp [idsL], by simp [ctxAt, Block.clientId, Block.innerBlocks],
    c7_remove_erases_node_at_level _ [0] "a"
      [Block.mk "b" false false [Block.mk "d" false false []]] 0
      (Block.mk "b" false false [Block.mk "d" false false []]) "b"
      (by simp [idsL]) (by simp [ctxAt, Block.clientId, Block.innerBlocks])
      (by simp) (by simp [Block.clientId])⟩

/--
C9: the drop-commit step performs zero `moveBlocksToPosition` calls when
no pending target exists; with a pending target it calls it exactly once
with `[clientId]`, the original parent captured with the pending target,
the resolved target id and target index, and clears the pending target,
so that a second `dropItem` performs no store mutation.
-/
theorem c9_dropItem_commits_pending_target_once :
    dropItem none = (none, []) ∧
    ∀ lt : LastTarget,
      dropItem (some lt) =
        (none, [⟨[lt.clientId], lt.originalParent, lt.targetId, lt.targetIndex⟩]) ∧
      (dropItem (dropItem (some lt)).1).2 = [] := by
  refine ⟨rfl, fun lt => ⟨rfl, rfl⟩⟩

/--
C5: a `moveItem` drag tick leaves the state unchanged (working tree and
pending target; the registry is never written by a tick at all, it is
only read) whenever one of the guards holds: the velocity sample is
exactly `0`, the vertical translate sign disagrees with the velocity
sign, or `|translate|` is below half the fixed 36-unit row height.  In
particular the half-row hysteresis guard suppresses the tick for all
values of every other input.
-/
theorem c5_guarded_tick_changes_nothing (positions : Registry) (s : DragState)
    (block : Block) (translate translateX : ℚ) (listPosition : Int) (v : ℚ)
    (h : v = 0 ∨ (v > 0 ∧ translate < 0) ∨ (v < 0 ∧ translate > 0) ∨
      |translate| < 36 / 2) :
    moveItem positions s block translate translateX listPosition v = s := by
  simp only [moveItem]
  by_cases h1 : v = 0
  · rw [if_pos h1]
  · rw [if_neg h1]
    by_cases h2 : (getPos positions (listPosition + 1) = none ∧ ¬v > 0 ∧
        translate > 0) ∨ (listPosition = 0 ∧ v > 0 ∧ translate < 0)
    · rw [if_pos h2]
    · rw [if_neg h2]
      by_cases h3 : (v > 0 ∧ translate < 0) ∨ (¬v > 0 ∧ translate > 0)
      · rw [if_pos h3]
      · rw [if_neg h3]
        by_cases h4 : |translate| < 36 / 2
        · rw [if_pos h4]
        · exfalso
          rcases h with hv | ⟨hv, ht⟩ | ⟨hv, ht⟩ | hh
          · exact h1 hv
          · exact h3 (Or.inl ⟨hv, ht⟩)
          · exact h3 (Or.inr ⟨by intro hc; linarith, ht⟩)
          · exact h4 hh

theorem c5_guarded_tick_changes_nothing_witness :
    ((1 : ℚ) = 0 ∨ ((1 : ℚ) > 0 ∧ (10 : ℚ) < 0) ∨ ((1 : ℚ) < 0 ∧ (10 : ℚ) > 0) ∨
      |(10 : ℚ)| < 36 / 2) ∧
    moveItem [] ⟨[Block.mk "a" false false []], [], none⟩
        (Block.mk "a" false false []) 10 (-100) 0 1 =
      ⟨[Block.mk "a" false false []], [], none⟩ :=
  ⟨by norm_num,
    c5_guarded_tick_changes_nothing [] ⟨[Block.mk "a" false false []], [], none⟩
      (Block.mk "a" false false []) 10 (-100) 0 1 (by norm_num)⟩

example : addItemToTree [.mk "a" false false [], .mk "c" false false []] "a"
    (.mk "b" true true []) true =
    ([.mk "a" false false [], .mk "b" true true [], .mk "c" false false []], 1, "") := by
  simp [addItemToTree, addAux]

/-- Every clientId occurring in a forest is the id of a node sitting at
some path context, at some index of its sibling list. -/
theorem exists_ctx_of_mem {x : String} :
    ∀ t : List Block, x ∈ idsL t →
      ∃ (path : List Nat) (pid : String) (sib : List Block) (j : Nat) (n : Block),
        ctxAt t path = some (pid, sib) ∧ sib.get? j = some n ∧ n.clientId = x := by
  intro t
  induction t using forestInd with
  | h0 => intro hx; simp [idsL] at hx
  | h1 c d s inner rest ih1 ih2 =>
      intro hx
      rw [idsL_cons] at hx
      simp only [idsB, List.cons_append, List.mem_cons, List.mem_append] at hx
      rcases hx with rfl | hxi | hxr
      · refine ⟨[], "", Block.mk x d s inner :: rest, 0, Block.mk x d s inner,
          ?_, ?_, ?_⟩
        · simp [ctxAt]
        · simp
        · simp [Block.clientId]
      · obtain ⟨path, pid, sib, j, n, hc, hg, hn⟩ := ih1 hxi
        cases path with
        | nil =>
            simp only [ctxAt, Option.some_inj, Prod.mk.injEq] at hc
            obtain ⟨-, hsib⟩ := hc
            refine ⟨[0], c, inner, j, n, ?_, ?_, hn⟩
            · simp [ctxAt, Block.clientId, Block.innerBlocks]
            · rw [← hsib] at hg
              exact hg
        | cons i p =>
            refine ⟨0 :: i :: p, pid, sib, j, n, ?_, hg, hn⟩
            simp only [ctxAt, List.get?, Option.some_bind, Block.innerBlocks,
              reduceCtorEq, reduceIte]
            simp only [ctxAt] at hc
            exact hc
      · obtain ⟨path, pid, sib, j, n, hc, hg, hn⟩ := ih2 hxr
        cases path with
        | nil =>
            simp only [ctxAt, Option.some_inj, Prod.mk.injEq] at hc
            obtain ⟨hpid, hsib⟩ := hc
            refine ⟨[], pid, Block.mk c d s inner :: rest, j + 1, n, ?_, ?_, hn⟩
            · simp [ctxAt, ← hpid]
            · rw [List.get?_cons_succ, hsib]
              exact hg
        | cons i p =>
            refine ⟨(i + 1) :: p, pid, sib, j, n, ?_, hg, hn⟩
            simp only [ctxAt, List.get?_cons_succ]
            simp only [ctxAt] at hc
            exact hc

/-- Replacing the sibling list at a context replaces exactly one
contiguous segment of the preorder id listing. -/
theorem setCtxAt_ids :
    ∀ (path : List Nat) (t : List Block) (pid : String) (sib ns t' : List Block),
      ctxAt t path = some (pid, sib) → setCtxAt t path ns = some t' →
      ∃ A B, idsL t = A ++ (idsL sib ++ B) ∧ idsL t' = A ++ (idsL ns ++ B) := by
  intro path
  induction path with
  | nil =>
      intro t pid sib ns t' hc hs
      simp only [ctxAt, Option.some_inj, Prod.mk.injEq] at hc
      simp only [setCtxAt, Option.some_inj] at hs
      obtain ⟨-, hsib⟩ := hc
      refine ⟨[], [], ?_, ?_⟩
      · simp [hsib]
      · simp [hs]
  | cons i p ih =>
      intro t pid sib ns t' hc hs
      simp only [ctxAt] at hc
      simp only [setCtxAt] at hs
      cases hg : t.get? i with
      | none => rw [hg] at hc; simp at hc
      | some b =>
          rw [hg] at hc hs
          simp only [Option.some_bind] at hc hs
          cases b with
          | mk c2 d2 s2 inner =>
              simp only [Block.clientId, Block.innerBlocks, Block.withInner] at hc hs
              have hi : i < t.length := (List.get?_eq_some.mp hg).1
              have hbi : t[i] = Block.mk c2 d2 s2 inner := by
                obtain ⟨h2, heq⟩ := List.get?_eq_some.mp hg
                simpa using heq
              have hdec : t = t.take i ++ Block.mk c2 d2 s2 inner :: t.drop (i + 1) := by
                conv_lhs => rw [← List.take_append_drop i t]
                rw [List.drop_eq_getElem_cons hi, hbi]
              have hids : idsL t =
                  idsL (t.take i) ++ ((c2 :: idsL inner) ++ idsL (t.drop (i + 1))) := by
                conv_lhs => rw [hdec]
                rw [idsL_append, idsL_cons]
                simp [idsB]
              by_cases hp : p = []
              · subst hp
                simp only [reduceIte, Option.some_inj, Prod.mk.injEq] at hc hs
                obtain ⟨-, hsib⟩ := hc
                refine ⟨idsL (t.take i) ++ [c2], idsL (t.drop (i + 1)), ?_, ?_⟩
                · rw [hids, ← hsib]
                  simp
                · rw [← hs, List.set_eq_take_cons_drop _ hi, idsL_append, idsL_cons]
                  simp [idsB]
              · simp only [hp, reduceIte] at hc hs
                cases hs2 : setCtxAt inner p ns with
                | none => rw [hs2] at hs; simp at hs
                | some inner2 =>
                    rw [hs2] at hs
                    simp only [Option.map_some, Option.map_some', Option.some_inj] at hs
                    obtain ⟨A2, B2, e1, e2⟩ := ih inner pid sib ns inner2 hc hs2
                    refine ⟨idsL (t.take i) ++ c2 :: A2, B2 ++ idsL (t.drop (i + 1)),
                      ?_, ?_⟩
                    · rw [hids, e1]
                      simp
                    · rw [← hs, List.set_eq_take_cons_drop _ hi, idsL_append, idsL_cons]
                      simp [idsB, e2]

theorem self_mem_nodesB (b : Block) : b ∈ nodesB b := by
  cases b
  simp [nodesB]

theorem nodesB_subset_of_mem {b : Block} {t : List Block} (h : b ∈ t) :
    nodesB b ⊆ nodesL t := by
  induction t with
  | nil => cases h
  | cons a rest ih =>
      rcases List.mem_cons.mp h with rfl | h2
      · rw [nodesL_cons]
        exact List.subset_append_left _ _
      · rw [nodesL_cons]
        exact (ih h2).trans (List.subset_append_right _ _)

theorem mem_nodesL_of_mem {b : Block} {t : List Block} (h : b ∈ t) :
    b ∈ nodesL t :=
  nodesB_subset_of_mem h (self_mem_nodesB b)

theorem nodesL_inner_subset (c : String) (d s : Bool) (inner : List Block) :
    nodesL inner ⊆ nodesB (Block.mk c d s inner) := by
  simp only [nodesB]
  exact List.subset_cons_of_subset _ (List.Subset.refl _)

/-- Every element of a sibling list designated by a context is a node of
the whole forest. -/
theorem ctx_mem_nodes :
    ∀ (path : List Nat) (t : List Block) {pid : String} {sib : List Block},
      ctxAt t path = some (pid, sib) → ∀ b ∈ sib, b ∈ nodesL t := by
  intro path
  induction path with
  | nil =>
      intro t pid sib h b hb
      simp only [ctxAt, Option.some_inj, Prod.mk.injEq] at h
      obtain ⟨-, hsib⟩ := h
      rw [← hsib] at hb
      exact mem_nodesL_of_mem hb
  | cons i p ih =>
      intro t pid sib h b hb
      simp only [ctxAt] at h
      cases hg : t.get? i with
      | none => rw [hg] at h; simp at h
      | some e =>
          rw [hg] at h
          simp only [Option.some_bind] at h
          cases e with
          | mk c2 d2 s2 inner =>
              simp only [Block.clientId, Block.innerBlocks] at h
              have hmem : (Block.mk c2 d2 s2 inner) ∈ t := List.get?_mem hg
              have hsub : nodesL inner ⊆ nodesL t :=
                (nodesL_inner_subset c2 d2 s2 inner).trans (nodesB_subset_of_mem hmem)
              by_cases hp : p = []
              · subst hp
                simp only [reduceIte, Option.some_inj, Prod.mk.injEq] at h
                obtain ⟨-, hsib⟩ := h
                rw [← hsib] at hb
                exact hsub (mem_nodesL_of_mem hb)
              · simp only [hp, reduceIte] at h
                exact hsub (ih inner h b hb)

/-- On a tree with unique clientIds, two nodes with the same clientId are
the same node. -/
theorem node_eq_of_clientId {t : List Block} (hnd : (idsL t).Nodup)
    {n m : Block} (hn : n ∈ nodesL t) (hm : m ∈ nodesL t)
    (h : n.clientId = m.clientId) : n = m := by
  rw [idsL_map_nodesL] at hnd
  exact List.inj_on_of_nodup_map hnd hn hm h

/-- A node's clientId occurs in the forest's id listing. -/
theorem clientId_mem_of_mem_nodesL {n : Block} {t : List Block}
    (h : n ∈ nodesL t) : n.clientId ∈ idsL t := by
  rw [idsL_map_nodesL]
  exact List.mem_map_of_mem _ h

/-- Removing a present id from a tree with unique ids splits the id
multiset: the removed node's subtree ids leave, everything else stays. -/
theorem remove_ids_perm {t : List Block} {x : String} (hnd : (idsL t).Nodup)
    (hx : x ∈ idsL t) :
    ∃ n : Block, n ∈ nodesL t ∧ n.clientId = x ∧
      (idsL t).Perm (idsB n ++ idsL (removeItemFromTree t x).1) := by
  obtain ⟨path, pid, sib, j, n, hc, hg, hn⟩ := exists_ctx_of_mem t hx
  have hnmem : n ∈ nodesL t := ctx_mem_nodes path t hc n (List.get?_mem hg)
  obtain ⟨t', hset, hrem⟩ := removeAux_ctx path t pid sib j n x hnd hc hg hn ""
  have hfst : (removeItemFromTree t x).1 = t' := by
    rw [removeItemFromTree, hrem]
  obtain ⟨A, B, e1, e2⟩ := setCtxAt_ids path t pid sib (sib.eraseIdx j) t' hc hset
  have hj : j < sib.length := (List.get?_eq_some.mp hg).1
  have hnj : sib[j] = n := by
    obtain ⟨h2, heq⟩ := List.get?_eq_some.mp hg
    simpa using heq
  have hdecs : sib = sib.take j ++ n :: sib.drop (j + 1) := by
    conv_lhs => rw [← List.take_append_drop j sib]
    rw [List.drop_eq_getElem_cons hj, hnj]
  have hsib_ids : idsL sib =
      idsL (sib.take j) ++ (idsB n ++ idsL (sib.drop (j + 1))) := by
    conv_lhs => rw [hdecs]
    rw [idsL_append, idsL_cons]
  have hera : idsL (sib.eraseIdx j) =
      idsL (sib.take j) ++ idsL (sib.drop (j + 1)) := by
    rw [List.eraseIdx_eq_take_drop_succ, idsL_append]
  refine ⟨n, hnmem, hn, ?_⟩
  rw [e1, hfst, e2, hsib_ids, hera]
  rw [← Multiset.coe_eq_coe]
  simp only [← Multiset.coe_add]
  abel

example : addChildItemToTree "a" (.mk "b" true true [])
    [.mk "a" false false [.mk "c" false false []]] =
    [.mk "a" false false [.mk "b" true true [], .mk "c" false false []]] := by
  simp [addChildItemToTree]

/-- `addItemToTree` on a forest that does not contain the anchor id only
copies: the accumulator is extended with the forest, index and target id
are unchanged. -/
theorem addAux_notMem {a : String} {item : Block} {af : Bool} :
    ∀ t : List Block, a ∉ idsL t →
      ∀ p acc (ti : Int) ts, -1 ≤ ti →
        addAux a item af p t acc ti ts = (acc ++ t, ti, ts) := by
  intro t
  induction t using forestInd with
  | h0 => intro hx p acc ti ts hti; simp [addAux]
  | h1 c d s inner rest ih1 ih2 =>
      intro hx p acc ti ts hti
      rw [idsL_cons] at hx
      simp only [idsB, List.cons_append, List.mem_cons, List.mem_append] at hx
      push_neg at hx
      obtain ⟨hca, hinner, hrest⟩ := hx
      have h1 := ih1 hinner c [] (-1) "" (le_refl _)
      have h2 := ih2 hrest p (acc ++ [Block.mk c d s inner]) ti ts hti
      by_cases hlen : inner.length > 0
      · simp [addAux, Ne.symm hca, hlen, h1, h2, max_eq_left hti]
      · simp [addAux, Ne.symm hca, hlen, h2]

/-- `addItemToTree` when the anchor sits at the current level: the copy of
the anchor and the copy of the item are pushed in the order selected by
`insertAfter`; the returned index is the item's position in the new
sibling list (offset by the accumulator) and the returned target id is
this level's parent id. -/
theorem addAux_root {a : String} {item : Block} {af : Bool} {n : Block}
    (hna : n.clientId = a) :
    ∀ (pre : List Block) (post : List Block), a ∉ idsL pre → a ∉ idsL post →
      ∀ p acc (ti : Int) ts,
        addAux a item af p (pre ++ n :: post) acc ti ts =
          (acc ++ pre ++ (if af then [n, item] else [item, n]) ++ post,
           ((acc ++ pre).length : Int) + (if af then 1 else 0), p) := by
  intro pre
  induction pre using forestInd with
  | h0 =>
      intro post hpre hpost p acc ti ts
      cases n with
      | mk c d s inner =>
          have hca : c = a := hna
          subst hca
          cases af
          · have hpost2 := @addAux_notMem c item false post hpost p
              (acc ++ [item, Block.mk c d s inner]) (acc.length : Int) p (by omega)
            simp only [List.nil_append, addAux, reduceIte, Bool.false_eq_true,
              if_false]
            rw [hpost2]
            simp
          · have hpost2 := @addAux_notMem c item true post hpost p
              (acc ++ [Block.mk c d s inner, item]) ((acc.length : Int) + 1) p
              (by omega)
            simp only [List.nil_append, addAux, reduceIte, if_true]
            rw [hpost2]
            simp
  | h1 c d s inner rest ih2l ih2 =>
      intro post hpre hpost p acc ti ts
      rw [idsL_cons] at hpre
      simp only [idsB, List.cons_append, List.mem_cons, List.mem_append] at hpre
      push_neg at hpre
      obtain ⟨hca, hinner, hrest⟩ := hpre
      have h1 := @addAux_notMem a item af inner hinner c [] (-1) "" (le_refl _)
      by_cases hlen : inner.length > 0
      · have h2 := ih2 post hrest hpost p (acc ++ [Block.mk c d s inner])
          (max ti (-1)) ts
        rw [List.cons_append]
        simp only [addAux, Ne.symm hca, hlen, reduceIte, h1, List.nil_append,
          ne_eq, not_true_eq_false, if_false]
        rw [h2]
        simp only [Prod.mk.injEq]
        refine ⟨by simp, ?_, trivial⟩
        cases af <;> simp [List.length_append]
      · have h2 := ih2 post hrest hpost p (acc ++ [Block.mk c d s inner]) ti ts
        rw [List.cons_append]
        simp only [addAux, Ne.symm hca, hlen, reduceIte, if_false]
        rw [h2]
        simp only [Prod.mk.injEq]
        refine ⟨by simp, ?_, trivial⟩
        cases af <;> simp [List.length_append]

/-- `addItemToTree` when the anchor sits strictly inside the subtree of
the element at position `u.length` of the current level: that element is
rebuilt around the recursive result, the recursive index is taken and
the recursive target id is passed through when non-empty. -/
theorem addAux_deep {a c2 : String} {d2 s2 : Bool} {item : Block} {af : Bool}
    {inner inner2 : List Block} {ti2 : Int} {ts2 : String}
    (hc2 : c2 ≠ a) (hne : inner ≠ [])
    (hrec : addAux a item af c2 inner [] (-1) "" = (inner2, ti2, ts2))
    (hti2 : 0 ≤ ti2) :
    ∀ (u : List Block) (w : List Block), a ∉ idsL u → a ∉ idsL w →
      ∀ p acc ts,
        addAux a item af p (u ++ Block.mk c2 d2 s2 inner :: w) acc (-1) ts =
          (acc ++ u ++ Block.mk c2 d2 s2 inner2 :: w, ti2,
           if ts2 ≠ "" then ts2 else ts) := by
  intro u
  induction u using forestInd with
  | h0 =>
      intro w _ hw p acc ts
      have hlen : inner.length > 0 := by
        cases inner
        · exact absurd rfl hne
        · simp
      have hmax : max (-1) ti2 = ti2 := by omega
      have hw2 := @addAux_notMem a item af w hw p
        (acc ++ [Block.mk c2 d2 s2 inner2]) ti2
        (if ts2 ≠ "" then ts2 else ts) (by omega)
      simp only [List.nil_append, addAux, hc2, hlen, reduceIte, hrec, if_false,
        hmax]
      rw [hw2]
      simp
  | h1 c d s inner0 rest ihl ih =>
      intro w hu hw p acc ts
      rw [idsL_cons] at hu
      simp only [idsB, List.cons_append, List.mem_cons, List.mem_append] at hu
      push_neg at hu
      obtain ⟨hc0, hinner0, hrest⟩ := hu
      have h1 := @addAux_notMem a item af inner0 hinner0 c [] (-1) "" (le_refl _)
      have h2 := ih w hrest hw p (acc ++ [Block.mk c d s inner0]) ts
      by_cases hlen : inner0.length > 0
      · rw [List.cons_append]
        simp only [addAux, Ne.symm hc0, hlen, reduceIte, h1, List.nil_append,
          ne_eq, not_true_eq_false, if_false, max_self]
        rw [h2]
        simp
      · rw [List.cons_append]
        simp only [addAux, Ne.symm hc0, hlen, reduceIte, if_false]
        rw [h2]
        simp

/-- Main characterisation of `addItemToTree` on a tree with unique
clientIds: the item is inserted immediately before or after the anchor
node (index `j` of the sibling list at `path`) according to the flag;
the returned index is the item's position in the new sibling list and
the returned target id is the anchor's parent id. -/
theorem addAux_ctx :
    ∀ (path : List Nat) (t : List Block) (pid : String) (sib : List Block)
      (j : Nat) (n : Block) (a : String) (item : Block) (af : Bool),
      (idsL t).Nodup → ctxAt t path = some (pid, sib) → sib.get? j = some n →
      n.clientId = a →
      ∀ p, ∃ t',
        setCtxAt t path (sib.take j ++ (if af then [n, item] else [item, n]) ++
          sib.drop (j + 1)) = some t' ∧
        addAux a item af p t [] (-1) "" =
          (t', (j : Int) + (if af then 1 else 0), if path = [] then p else pid) := by
  intro path
  induction path with
  | nil =>
      intro t pid sib j n a item af hnd hctx hget hx p
      simp only [ctxAt, Option.some_inj, Prod.mk.injEq] at hctx
      obtain ⟨hpid, rfl⟩ := hctx
      have hj : j < t.length := (List.get?_eq_some.mp hget).1
      have hnj : t[j] = n := by
        obtain ⟨h2, heq⟩ := List.get?_eq_some.mp hget
        simpa using heq
      have hdec : t = t.take j ++ n :: t.drop (j + 1) := by
        conv_lhs => rw [← List.take_append_drop j t]
        rw [List.drop_eq_getElem_cons hj, hnj]
      have hids : idsL t = idsL (t.take j) ++ (idsB n ++ idsL (t.drop (j + 1))) := by
        conv_lhs => rw [hdec]
        rw [idsL_append, idsL_cons]
      rw [hids] at hnd
      have hdisj1 := (List.nodup_append.mp hnd).2.2
      have hnd2 := (List.nodup_append.mp hnd).2.1
      have hdisj2 := (List.nodup_append.mp hnd2).2.2
      have hxn : a ∈ idsB n := by
        cases n with
        | mk c d s inner =>
            have : c = a := hx
            simp [idsB, this]
      have hxu : a ∉ idsL (t.take j) := fun hc => hdisj1 hc (by simp [hxn])
      have hxw : a ∉ idsL (t.drop (j + 1)) := fun hc => hdisj2 hxn hc
      have htk : (t.take j).length = j := by
        simp [List.length_take]
        omega
      refine ⟨t.take j ++ (if af then [n, item] else [item, n]) ++ t.drop (j + 1),
        by simp [setCtxAt], ?_⟩
      conv_lhs => rw [hdec]
      rw [addAux_root hx (t.take j) (t.drop (j + 1)) hxu hxw p [] (-1) ""]
      simp only [List.nil_append, reduceIte, if_pos rfl, Prod.mk.injEq, htk]
  | cons i p ih =>
      intro t pid sib j n a item af hnd hctx hget hx P
      simp only [ctxAt] at hctx
      cases hg : t.get? i with
      | none => rw [hg] at hctx; simp at hctx
      | some b =>
          rw [hg] at hctx
          simp only [Option.some_bind] at hctx
          cases b with
          | mk c2 d2 s2 inner =>
              simp only [Block.clientId, Block.innerBlocks] at hctx
              have hi : i < t.length := (List.get?_eq_some.mp hg).1
              have hbi : t[i] = Block.mk c2 d2 s2 inner := by
                obtain ⟨h2, heq⟩ := List.get?_eq_some.mp hg
                simpa using heq
              have hdec : t = t.take i ++ Block.mk c2 d2 s2 inner :: t.drop (i + 1) := by
                conv_lhs => rw [← List.take_append_drop i t]
                rw [List.drop_eq_getElem_cons hi, hbi]
              have hids : idsL t =
                  idsL (t.take i) ++ ((c2 :: idsL inner) ++ idsL (t.drop (i + 1))) := by
                conv_lhs => rw [hdec]
                rw [idsL_append, idsL_cons]
                simp [idsB]
              have hxinner : a ∈ idsL inner := by
                by_cases hp : p = []
                · subst hp
                  simp only [reduceIte, Option.some_inj, Prod.mk.injEq] at hctx
                  obtain ⟨-, hsib⟩ := hctx
                  have hmem : n ∈ sib := List.get?_mem hget
                  rw [hsib]
                  subst hx
                  exact clientId_mem_idsL hmem
                · simp only [hp, reduceIte] at hctx
                  apply ctxAt_ids_subset p inner hctx
                  have hmem : n ∈ sib := List.get?_mem hget
                  subst hx
                  exact clientId_mem_idsL hmem
              rw [hids] at hnd
              obtain ⟨hndu, hndrest, hdisj1⟩ := List.nodup_append.mp hnd
              obtain ⟨hndmid, hndw, hdisj2⟩ := List.nodup_append.mp hndrest
              have hxmid : a ∈ c2 :: idsL inner := by simp [hxinner]
              have hxu : a ∉ idsL (t.take i) := fun hc => hdisj1 hc
                (by simp only [List.mem_cons, List.mem_append] at hxmid ⊢; tauto)
              have hxw : a ∉ idsL (t.drop (i + 1)) := fun hc => hdisj2 hxmid hc
              have hc2x : c2 ≠ a := by
                intro hc
                subst hc
                exact (List.nodup_cons.mp hndmid).1 hxinner
              have hinnerne : inner ≠ [] := by
                intro hc
                rw [hc] at hxinner
                simp [idsL] at hxinner
              have hndinner : (idsL inner).Nodup := (List.nodup_cons.mp hndmid).2
              by_cases hp : p = []
              · subst hp
                simp only [reduceIte, Option.some_inj, Prod.mk.injEq] at hctx
                obtain ⟨hpid, hsib⟩ := hctx
                subst hsib
                have hj : j < inner.length := (List.get?_eq_some.mp hget).1
                have hnj : inner[j] = n := by
                  obtain ⟨h2, heq⟩ := List.get?_eq_some.mp hget
                  simpa using heq
                have hdeci : inner = inner.take j ++ n :: inner.drop (j + 1) := by
                  conv_lhs => rw [← List.take_append_drop j inner]
                  rw [List.drop_eq_getElem_cons hj, hnj]
                have hidsi : idsL inner =
                    idsL (inner.take j) ++ (idsB n ++ idsL (inner.drop (j + 1))) := by
                  conv_lhs => rw [hdeci]
                  rw [idsL_append, idsL_cons]
                obtain ⟨hA, hBC, hD1⟩ := List.nodup_append.mp (hidsi ▸ hndinner)
                have hD2 := (List.nodup_append.mp hBC).2.2
                have hxn : a ∈ idsB n := by
                  cases n with
                  | mk c d s i0 =>
                      have hcx : c = a := hx
                      simp [idsB, hcx]
                have hxp : a ∉ idsL (inner.take j) := fun hc => hD1 hc (by simp [hxn])
                have hxq : a ∉ idsL (inner.drop (j + 1)) := fun hc => hD2 hxn hc
                have htk : (inner.take j).length = j := by
                  simp [List.length_take]
                  omega
                have hrec : addAux a item af c2 inner [] (-1) "" =
                    (inner.take j ++ (if af then [n, item] else [item, n]) ++
                      inner.drop (j + 1), (j : Int) + (if af then 1 else 0), c2) := by
                  conv_lhs => rw [hdeci]
                  rw [addAux_root hx (inner.take j) (inner.drop (j + 1)) hxp hxq c2
                    [] (-1) ""]
                  simp [htk]
                have hmain := @addAux_deep a c2 d2 s2 item af inner
                  (inner.take j ++ (if af then [n, item] else [item, n]) ++
                    inner.drop (j + 1)) ((j : Int) + (if af then 1 else 0)) c2
                  hc2x hinnerne hrec (by cases af <;> omega)
                  (t.take i) (t.drop (i + 1)) hxu hxw P [] ""
                refine ⟨t.take i ++ Block.mk c2 d2 s2
                    (inner.take j ++ (if af then [n, item] else [item, n]) ++
                      inner.drop (j + 1)) :: t.drop (i + 1), ?_, ?_⟩
                · simp only [setCtxAt, hg, Option.some_bind, reduceIte, Block.withInner]
                  rw [List.set_eq_take_cons_drop _ hi]
                · have hts : (if c2 ≠ "" then c2 else "") = c2 := by
                    by_cases hc2e : c2 = "" <;> simp [hc2e]
                  conv_lhs => rw [hdec]
                  rw [hmain, hts]
                  simp [hpid]
              · simp only [hp, reduceIte] at hctx
                obtain ⟨inner2, hsetI, hrecI⟩ :=
                  ih inner pid sib j n a item af hndinner hctx hget hx c2
                rw [if_neg hp] at hrecI
                have hmain := @addAux_deep a c2 d2 s2 item af inner inner2
                  ((j : Int) + (if af then 1 else 0)) pid
                  hc2x hinnerne hrecI (by cases af <;> omega)
                  (t.take i) (t.drop (i + 1)) hxu hxw P [] ""
                refine ⟨t.take i ++ Block.mk c2 d2 s2 inner2 :: t.drop (i + 1), ?_, ?_⟩
                · simp only [setCtxAt, hg, hp, Option.some_bind, reduceIte,
                    Block.innerBlocks, Block.withInner, hsetI, Option.map_some,
                    Option.map_some']
                  rw [List.set_eq_take_cons_drop _ hi]
                · conv_lhs => rw [hdec]
                  rw [hmain]
                  by_cases hpe : pid = ""
                  · simp [hpe]
                  · simp [hpe]

/--
C6: on a tree with unique clientIds (the spec's data-model invariant),
`addItemToTree` inserts the item immediately before or after the anchor
node — the node at index `j` of the sibling list designated by `path` —
according to the `insertAfter` flag, and returns the 0-based index of
the item in its new sibling sequence together with the anchor's parent
id; when the anchor id is not present in the tree it returns a tree
equal to the input, sentinel index `-1` and an empty target id.
-/
theorem c6_insertAdjacent_spec (t : List Block) (a : String) (item : Block)
    (af : Bool) :
    ((idsL t).Nodup →
      ∀ path pid sib j n, ctxAt t path = some (pid, sib) →
        sib.get? j = some n → n.clientId = a →
        ∃ t', setCtxAt t path
            (sib.take j ++ (if af then [n, item] else [item, n]) ++
              sib.drop (j + 1)) = some t' ∧
          addItemToTree t a item af =
            (t', (j : Int) + (if af then 1 else 0), pid)) ∧
    (a ∉ idsL t → addItemToTree t a item af = (t, -1, "")) := by
  constructor
  · intro hnd path pid sib j n hctx hget hx
    obtain ⟨t', hset, hadd⟩ :=
      addAux_ctx path t pid sib j n a item af hnd hctx hget hx ""
    refine ⟨t', hset, ?_⟩
    rw [addItemToTree, hadd]
    by_cases hp : path = []
    · subst hp
      simp only [ctxAt, Option.some_inj, Prod.mk.injEq] at hctx
      obtain ⟨hpid, -⟩ := hctx
      simp [← hpid]
    · simp [hp]
  · intro ha
    rw [addItemToTree, addAux_notMem t ha "" [] (-1) "" (le_refl _)]
    simp

theorem c6_insertAdjacent_spec_witness :
    ((idsL [Block.mk "a" false false [Block.mk "b" false false []]]).Nodup) ∧
    (ctxAt [Block.mk "a" false false [Block.mk "b" false false []]] [0] =
      some ("a", [Block.mk "b" false false []])) ∧
    ([Block.mk "b" false false []].get? 0 = some (Block.mk "b" false false [])) ∧
    ((Block.mk "b" false false []).clientId = "b") ∧
    (∃ t', setCtxAt [Block.mk "a" false false [Block.mk "b" false false []]] [0]
        ([Block.mk "b" false false []].take 0 ++
          (if true then [Block.mk "b" false false [], Block.mk "x" false false []]
           else [Block.mk "x" false false [], Block.mk "b" false false []]) ++
          [Block.mk "b" false false []].drop (0 + 1)) = some t' ∧
      addItemToTree [Block.mk "a" false false [Block.mk "b" false false []]] "b"
        (Block.mk "x" false false []) true =
        (t', (0 : Int) + (if true then 1 else 0), "a")) :=
  ⟨by simp [idsL], by simp [ctxAt, Block.clientId, Block.innerBlocks], by simp,
    by simp [Block.clientId],
    (c6_insertAdjacent_spec _ "b" _ true).1 (by simp [idsL]) [0] "a" _ 0 _
      (by simp [ctxAt, Block.clientId, Block.innerBlocks]) (by simp)
      (by simp [Block.clientId])⟩

/-- Inserting an item at a present anchor adds exactly the item's subtree
ids to the tree's id multiset. -/
theorem add_ids_perm {t : List Block} {a : String} {item : Block} {af : Bool}
    (hnd : (idsL t).Nodup) (ha : a ∈ idsL t) :
    (idsL (addItemToTree t a item af).1).Perm (idsB item ++ idsL t) := by
  obtain ⟨path, pid, sib, j, n, hctx, hget, hx⟩ := exists_ctx_of_mem t ha
  obtain ⟨t', hset, hadd⟩ :=
    addAux_ctx path t pid sib j n a item af hnd hctx hget hx ""
  have hfst : (addItemToTree t a item af).1 = t' := by
    rw [addItemToTree, hadd]
  obtain ⟨A, B, e1, e2⟩ := setCtxAt_ids path t pid sib _ t' hctx hset
  have hj : j < sib.length := (List.get?_eq_some.mp hget).1
  have hnj : sib[j] = n := by
    obtain ⟨h2, heq⟩ := List.get?_eq_some.mp hget
    simpa using heq
  have hdecs : sib = sib.take j ++ n :: sib.drop (j + 1) := by
    conv_lhs => rw [← List.take_append_drop j sib]
    rw [List.drop_eq_getElem_cons hj, hnj]
  have h1 : idsL sib =
      idsL (sib.take j) ++ (idsB n ++ idsL (sib.drop (j + 1))) := by
    conv_lhs => rw [hdecs]
    rw [idsL_append, idsL_cons]
  have h2 : idsL (sib.take j ++ (if af then [n, item] else [item, n]) ++
      sib.drop (j + 1)) =
      idsL (sib.take j) ++ (idsL (if af then [n, item] else [item, n]) ++
        idsL (sib.drop (j + 1))) := by
    rw [idsL_append, idsL_append]
    simp
  have hI : (idsL (if af then [n, item] else [item, n]) : Multiset String) =
      (idsB item : Multiset String) + (idsB n : Multiset String) := by
    cases af
    · simp only [Bool.false_eq_true, if_false]
      rw [idsL_cons, idsL_cons]
      simp only [← Multiset.coe_add, idsL]
      simp
    · simp only [if_true]
      rw [idsL_cons, idsL_cons]
      simp only [← Multiset.coe_add, idsL]
      simp
      exact List.perm_append_comm
  rw [hfst, e2, h2]
  conv_rhs => rw [e1, h1]
  rw [← Multiset.coe_eq_coe]
  simp only [← Multiset.coe_add]
  rw [hI]
  abel

/--
C2: on a tree `t` with unique clientIds, removing the (unique) node `n`
whose clientId is `x` and re-inserting that node adjacent to any anchor
id present in the remaining tree yields a tree whose multiset of node
clientIds equals that of `t`, with no duplicate clientIds.
-/
theorem c2_remove_insert_inverse (t : List Block) (x a : String) (af : Bool)
    (n : Block) (hnd : (idsL t).Nodup) (hmem : n ∈ nodesL t)
    (hcid : n.clientId = x)
    (ha : a ∈ idsL (removeItemFromTree t x).1) :
    (idsL (addItemToTree (removeItemFromTree t x).1 a n af).1).Perm (idsL t) ∧
    (idsL (addItemToTree (removeItemFromTree t x).1 a n af).1).Nodup := by
  have hx : x ∈ idsL t := hcid ▸ clientId_mem_of_mem_nodesL hmem
  obtain ⟨n0, hn0mem, hn0cid, hperm⟩ := remove_ids_perm hnd hx
  have hn0 : n0 = n :=
    node_eq_of_clientId hnd hn0mem hmem (by rw [hn0cid, hcid])
  subst hn0
  have hndsplit : (idsB n0 ++ idsL (removeItemFromTree t x).1).Nodup :=
    (hperm.nodup_iff).mp hnd
  have hndT : (idsL (removeItemFromTree t x).1).Nodup :=
    (List.nodup_append.mp hndsplit).2.1
  have haperm := @add_ids_perm (removeItemFromTree t x).1 a n0 af hndT ha
  have hfinal : (idsL (addItemToTree (removeItemFromTree t x).1 a n0 af).1).Perm
      (idsL t) := haperm.trans hperm.symm
  exact ⟨hfinal, hfinal.symm.nodup hnd⟩

theorem c2_remove_insert_inverse_witness :
    ((idsL [Block.mk "a" false false [Block.mk "b" false false []],
        Block.mk "c" false false []]).Nodup) ∧
    ((Block.mk "b" false false []) ∈ nodesL [Block.mk "a" false false
        [Block.mk "b" false false []], Block.mk "c" false false []]) ∧
    ((Block.mk "b" false false []).clientId = "b") ∧
    ("c" ∈ idsL (removeItemFromTree [Block.mk "a" false false
        [Block.mk "b" false false []], Block.mk "c" false false []] "b").1) ∧
    ((idsL (addItemToTree (removeItemFromTree [Block.mk "a" false false
          [Block.mk "b" false false []], Block.mk "c" false false []] "b").1 "c"
        (Block.mk "b" false false []) true).1).Perm
      (idsL [Block.mk "a" false false [Block.mk "b" false false []],
        Block.mk "c" false false []]) ∧
    (idsL (addItemToTree (removeItemFromTree [Block.mk "a" false false
          [Block.mk "b" false false []], Block.mk "c" false false []] "b").1 "c"
        (Block.mk "b" false false []) true).1).Nodup) :=
  ⟨by simp [idsL], by simp [nodesL], by simp [Block.clientId],
    by simp [removeItemFromTree, removeAux, idsL],
    c2_remove_insert_inverse _ "b" "c" true _ (by simp [idsL]) (by simp [nodesL])
      (by simp [Block.clientId])
      (by simp [removeItemFromTree, removeAux, idsL])⟩

/-- `addChildItemToTree` on a forest not containing the target id is the
identity (up to the value-equal copies it builds). -/
theorem addChild_notMem {a : String} {item : Block} :
    ∀ t : List Block, a ∉ idsL t → addChildItemToTree a item t = t := by
  intro t
  induction t using forestInd with
  | h0 => intro hx; simp [addChildItemToTree]
  | h1 c d s inner rest ih1 ih2 =>
      intro hx
      rw [idsL_cons] at hx
      simp only [idsB, List.cons_append, List.mem_cons, List.mem_append] at hx
      push_neg at hx
      obtain ⟨hca, hinner, hrest⟩ := hx
      by_cases hlen : inner.length > 0
      · simp [addChildItemToTree, Ne.symm hca, hlen, ih1 hinner, ih2 hrest]
      · simp [addChildItemToTree, Ne.symm hca, hlen, ih2 hrest]

/-- `addChildItemToTree` when the target node sits at the current level:
the item is prepended (without copying) to that node's `innerBlocks`. -/
theorem addChild_root {a : String} {item : Block} {n : Block}
    (hna : n.clientId = a) :
    ∀ (pre : List Block) (post : List Block), a ∉ idsL pre → a ∉ idsL post →
      addChildItemToTree a item (pre ++ n :: post) =
        pre ++ n.withInner (item :: n.innerBlocks) :: post := by
  intro pre
  induction pre using forestInd with
  | h0 =>
      intro post hpre hpost
      cases n with
      | mk c d s inner =>
          have hca : c = a := hna
          subst hca
          simp [addChildItemToTree, addChild_notMem post hpost, Block.withInner,
            Block.innerBlocks]
  | h1 c d s inner rest ih1 ih2 =>
      intro post hpre hpost
      rw [idsL_cons] at hpre
      simp only [idsB, List.cons_append, List.mem_cons, List.mem_append] at hpre
      push_neg at hpre
      obtain ⟨hca, hinner, hrest⟩ := hpre
      have h2 := ih2 post hrest hpost
      by_cases hlen : inner.length > 0
      · simp [addChildItemToTree, Ne.symm hca, hlen, addChild_notMem inner hinner, h2]
      · simp [addChildItemToTree, Ne.symm hca, hlen, h2]

/-- `addChildItemToTree` when the target sits strictly inside the subtree
of the element at position `u.length` of the current level. -/
theorem addChild_deep {a c2 : String} {d2 s2 : Bool} {item : Block}
    {inner inner2 : List Block} (hc2 : c2 ≠ a) (hne : inner ≠ [])
    (hrec : addChildItemToTree a item inner = inner2) :
    ∀ (u : List Block) (w : List Block), a ∉ idsL u → a ∉ idsL w →
      addChildItemToTree a item (u ++ Block.mk c2 d2 s2 inner :: w) =
        u ++ Block.mk c2 d2 s2 inner2 :: w := by
  intro u
  induction u using forestInd with
  | h0 =>
      intro w _ hw
      have hlen : inner.length > 0 := by
        cases inner
        · exact absurd rfl hne
        · simp
      simp [addChildItemToTree, hc2, hlen, hrec, addChild_notMem w hw]
  | h1 c d s inner0 rest ih1 ih2 =>
      intro w hu hw
      rw [idsL_cons] at hu
      simp only [idsB, List.cons_append, List.mem_cons, List.mem_append] at hu
      push_neg at hu
      obtain ⟨hc0, hinner0, hrest⟩ := hu
      have h2 := ih2 w hrest hw
      by_cases hlen : inner0.length > 0
      · simp [addChildItemToTree, Ne.symm hc0, hlen,
          addChild_notMem inner0 hinner0, h2]
      · simp [addChildItemToTree, Ne.symm hc0, hlen, h2]

/-- Main characterisation of `addChildItemToTree` on a tree with unique
clientIds: the target node (at index `j` of the sibling list designated
by `path`) gets the item prepended to its `innerBlocks`; everything else
is unchanged. -/
theorem addChild_ctx :
    ∀ (path : List Nat) (t : List Block) (pid : String) (sib : List Block)
      (j : Nat) (n : Block) (a : String) (item : Block),
      (idsL t).Nodup → ctxAt t path = some (pid, sib) → sib.get? j = some n →
      n.clientId = a →
      ∃ t', setCtxAt t path
          (sib.set j (n.withInner (item :: n.innerBlocks))) = some t' ∧
        addChildItemToTree a item t = t' := by
  intro path
  induction path with
  | nil =>
      intro t pid sib j n a item hnd hctx hget hx
      simp only [ctxAt, Option.some_inj, Prod.mk.injEq] at hctx
      obtain ⟨-, rfl⟩ := hctx
      have hj : j < t.length := (List.get?_eq_some.mp hget).1
      have hnj : t[j] = n := by
        obtain ⟨h2, heq⟩ := List.get?_eq_some.mp hget
        simpa using heq
      have hdec : t = t.take j ++ n :: t.drop (j + 1) := by
        conv_lhs => rw [← List.take_append_drop j t]
        rw [List.drop_eq_getElem_cons hj, hnj]
      have hids : idsL t = idsL (t.take j) ++ (idsB n ++ idsL (t.drop (j + 1))) := by
        conv_lhs => rw [hdec]
        rw [idsL_append, idsL_cons]
      rw [hids] at hnd
      have hdisj1 := (List.nodup_append.mp hnd).2.2
      have hnd2 := (List.nodup_append.mp hnd).2.1
      have hdisj2 := (List.nodup_append.mp hnd2).2.2
      have hxn : a ∈ idsB n := by
        cases n with
        | mk c d s inner =>
            have : c = a := hx
            simp [idsB, this]
      have hxu : a ∉ idsL (t.take j) := fun hc => hdisj1 hc (by simp [hxn])
      have hxw : a ∉ idsL (t.drop (j + 1)) := fun hc => hdisj2 hxn hc
      refine ⟨t.take j ++ n.withInner (item :: n.innerBlocks) :: t.drop (j + 1),
        ?_, ?_⟩
      · simp only [setCtxAt, Option.some_inj]
        rw [List.set_eq_take_cons_drop _ hj]
      · conv_lhs => rw [hdec]
        exact addChild_root hx (t.take j) (t.drop (j + 1)) hxu hxw
  | cons i p ih =>
      intro t pid sib j n a item hnd hctx hget hx
      simp only [ctxAt] at hctx
      cases hg : t.get? i with
      | none => rw [hg] at hctx; simp at hctx
      | some b =>
          rw [hg] at hctx
          simp only [Option.some_bind] at hctx
          cases b with
          | mk c2 d2 s2 inner =>
              simp only [Block.clientId, Block.innerBlocks] at hctx
              have hi : i < t.length := (List.get?_eq_some.mp hg).1
              have hbi : t[i] = Block.mk c2 d2 s2 inner := by
                obtain ⟨h2, heq⟩ := List.get?_eq_some.mp hg
                simpa using heq
              have hdec : t = t.take i ++ Block.mk c2 d2 s2 inner :: t.drop (i + 1) := by
                conv_lhs => rw [← List.take_append_drop i t]
                rw [List.drop_eq_getElem_cons hi, hbi]
              have hids : idsL t =
                  idsL (t.take i) ++ ((c2 :: idsL inner) ++ idsL (t.drop (i + 1))) := by
                conv_lhs => rw [hdec]
                rw [idsL_append, idsL_cons]
                simp [idsB]
              have hxinner : a ∈ idsL inner := by
                by_cases hp : p = []
                · subst hp
                  simp only [reduceIte, Option.some_inj, Prod.mk.injEq] at hctx
                  obtain ⟨-, hsib⟩ := hctx
                  have hmem : n ∈ sib := List.get?_mem hget
                  rw [hsib]
                  subst hx
                  exact clientId_mem_idsL hmem
                · simp only [hp, reduceIte] at hctx
                  apply ctxAt_ids_subset p inner hctx
                  have hmem : n ∈ sib := List.get?_mem hget
                  subst hx
                  exact clientId_mem_idsL hmem
              rw [hids] at hnd
              obtain ⟨hndu, hndrest, hdisj1⟩ := List.nodup_append.mp hnd
              obtain ⟨hndmid, hndw, hdisj2⟩ := List.nodup_append.mp hndrest
              have hxmid : a ∈ c2 :: idsL inner := by simp [hxinner]
              have hxu : a ∉ idsL (t.take i) := fun hc => hdisj1 hc
                (by simp only [List.mem_cons, List.mem_append] at hxmid ⊢; tauto)
              have hxw : a ∉ idsL (t.drop (i + 1)) := fun hc => hdisj2 hxmid hc
              have hc2x : c2 ≠ a := by
                intro hc
                subst hc
                exact (List.nodup_cons.mp hndmid).1 hxinner
              have hinnerne : inner ≠ [] := by
                intro hc
                rw [hc] at hxinner
                simp [idsL] at hxinner
              have hndinner : (idsL inner).Nodup := (List.nodup_cons.mp hndmid).2
              by_cases hp : p = []
              · subst hp
                simp only [reduceIte, Option.some_inj, Prod.mk.injEq] at hctx
                obtain ⟨hpid, hsib⟩ := hctx
                subst hsib
                have hj : j < inner.length := (List.get?_eq_some.mp hget).1
                have hnj : inner[j] = n := by
                  obtain ⟨h2, heq⟩ := List.get?_eq_some.mp hget
                  simpa using heq
                have hdeci : inner = inner.take j ++ n :: inner.drop (j + 1) := by
                  conv_lhs => rw [← List.take_append_drop j inner]
                  rw [List.drop_eq_getElem_cons hj, hnj]
                have hidsi : idsL inner =
                    idsL (inner.take j) ++ (idsB n ++ idsL (inner.drop (j + 1))) := by
                  conv_lhs => rw [hdeci]
                  rw [idsL_append, idsL_cons]
                obtain ⟨hA, hBC, hD1⟩ := List.nodup_append.mp (hidsi ▸ hndinner)
                have hD2 := (List.nodup_append.mp hBC).2.2
                have hxn : a ∈ idsB n := by
                  cases n with
                  | mk c d s i0 =>
                      have hcx : c = a := hx
                      simp [idsB, hcx]
                have hxp : a ∉ idsL (inner.take j) := fun hc => hD1 hc (by simp [hxn])
                have hxq : a ∉ idsL (inner.drop (j + 1)) := fun hc => hD2 hxn hc
                have hrec : addChildItemToTree a item inner =
                    inner.take j ++ n.withInner (item :: n.innerBlocks) ::
                      inner.drop (j + 1) := by
                  conv_lhs => rw [hdeci]
                  exact addChild_root hx (inner.take j) (inner.drop (j + 1)) hxp hxq
                have hmain := @addChild_deep a c2 d2 s2 item inner
                  (inner.take j ++ n.withInner (item :: n.innerBlocks) ::
                    inner.drop (j + 1)) hc2x hinnerne hrec
                  (t.take i) (t.drop (i + 1)) hxu hxw
                refine ⟨t.take i ++ Block.mk c2 d2 s2
                    (inner.take j ++ n.withInner (item :: n.innerBlocks) ::
                      inner.drop (j + 1)) :: t.drop (i + 1), ?_, ?_⟩
                · simp only [setCtxAt, hg, Option.some_bind, reduceIte,
                    Block.withInner_mk, Option.some_inj]
                  rw [List.set_eq_take_cons_drop _ hi,
                    List.set_eq_take_cons_drop _ hj]
                · conv_lhs => rw [hdec]
                  rw [hmain]
              · simp only [hp, reduceIte] at hctx
                obtain ⟨inner2, hsetI, hrecI⟩ :=
                  ih inner pid sib j n a item hndinner hctx hget hx
                have hmain := @addChild_deep a c2 d2 s2 item inner inner2
                  hc2x hinnerne hrecI (t.take i) (t.drop (i + 1)) hxu hxw
                refine ⟨t.take i ++ Block.mk c2 d2 s2 inner2 :: t.drop (i + 1), ?_, ?_⟩
                · simp only [setCtxAt, hg, hp, Option.some_bind, reduceIte,
                    Block.innerBlocks_mk, hsetI, Option.map_some, Option.map_some',
                    Block.withInner_mk, Option.some_inj]
                  rw [List.set_eq_take_cons_drop _ hi]
                · conv_lhs => rw [hdec]
                  rw [hmain]

/-- Prepending an item into a present container adds exactly the item's
subtree ids to the tree's id multiset. -/
theorem addChild_ids_perm {t : List Block} {a : String} {item : Block}
    (hnd : (idsL t).Nodup) (ha : a ∈ idsL t) :
    (idsL (addChildItemToTree a item t)).Perm (idsB item ++ idsL t) := by
  obtain ⟨path, pid, sib, j, n, hctx, hget, hx⟩ := exists_ctx_of_mem t ha
  obtain ⟨t', hset, hadd⟩ := addChild_ctx path t pid sib j n a item hnd hctx hget hx
  obtain ⟨A, B, e1, e2⟩ := setCtxAt_ids path t pid sib _ t' hctx hset
  have hj : j < sib.length := (List.get?_eq_some.mp hget).1
  have hnj : sib[j] = n := by
    obtain ⟨h2, heq⟩ := List.get?_eq_some.mp hget
    simpa using heq
  have hdecs : sib = sib.take j ++ n :: sib.drop (j + 1) := by
    conv_lhs => rw [← List.take_append_drop j sib]
    rw [List.drop_eq_getElem_cons hj, hnj]
  have h1 : idsL sib =
      idsL (sib.take j) ++ (idsB n ++ idsL (sib.drop (j + 1))) := by
    conv_lhs => rw [hdecs]
    rw [idsL_append, idsL_cons]
  have h2 : idsL (sib.set j (n.withInner (item :: n.innerBlocks))) =
      idsL (sib.take j) ++ (idsB (n.withInner (item :: n.innerBlocks)) ++
        idsL (sib.drop (j + 1))) := by
    rw [List.set_eq_take_cons_drop _ hj, idsL_append, idsL_cons]
  have hN : (idsB (n.withInner (item :: n.innerBlocks))).Perm
      (idsB item ++ idsB n) := by
    cases n with
    | mk c d s i0 =>
        simp only [Block.withInner_mk, Block.innerBlocks_mk, idsB_mk]
        rw [idsL_cons]
        exact List.perm_middle.symm
  have hNm : ((idsB (n.withInner (item :: n.innerBlocks))) : Multiset String) =
      (idsB item : Multiset String) + (idsB n : Multiset String) := by
    calc ((idsB (n.withInner (item :: n.innerBlocks))) : Multiset String)
        = ((idsB item ++ idsB n : List String) : Multiset String) :=
          Multiset.coe_eq_coe.mpr hN
      _ = (idsB item : Multiset String) + (idsB n : Multiset String) :=
          (Multiset.coe_add _ _).symm
  rw [hadd, e2, h2]
  conv_rhs => rw [e1, h1]
  rw [← Multiset.coe_eq_coe]
  simp only [← Multiset.coe_add]
  rw [hNm]
  abel

/--
C1: a drag tick with `|translateX| > 20` moving left (`translateX < 0`),
with the registry entry at the computed jump position having
`dropContainer = true`, `dropSibling = false` and a non-empty `parentId`,
reparents the dragged node: the working tree becomes the authoritative
tree with the dragged node removed and prepended as the first child of
the target node, so the dragged id occurs exactly once (it is gone from
its original location), and the pending target records the target
entry's clientId with target index 0.  The authoritative tree itself is
untouched.
-/
theorem c1_reparent_left_into_container
    (positions : Registry) (s : DragState) (block : Block)
    (translate translateX : ℚ) (listPosition : Int) (v : ℚ) (tp : DropPosition)
    (hv : v ≠ 0)
    (hsign : ¬((v > 0 ∧ translate < 0) ∨ (¬v > 0 ∧ translate > 0)))
    (hhalf : ¬(|translate| < 36 / 2))
    (htx : |translateX| > 20)
    (htxneg : translateX < 0)
    (hreg : getPos positions
        (if ¬v > 0 then listPosition - Int.ceil |translate / 36|
         else listPosition + Int.ceil |translate / 36|) = some tp)
    (hpid : ¬(tp.parentId = ""))
    (hsib : ¬(tp.dropSibling = true))
    (hcont : tp.dropContainer = true)
    (hnd : (idsL s.clientIdsTree).Nodup)
    (hblk : block ∈ nodesL s.clientIdsTree)
    (htgt : tp.clientId ∈ idsL s.clientIdsTree)
    (hnotin : tp.clientId ∉ idsB block) :
    (moveItem positions s block translate translateX listPosition v).clientIdsTree =
      s.clientIdsTree ∧
    (moveItem positions s block translate translateX listPosition v).lastTarget =
      some ⟨block.clientId, (removeItemFromTree s.clientIdsTree block.clientId).2,
        tp.clientId, 0⟩ ∧
    (moveItem positions s block translate translateX listPosition v).tree =
      addChildItemToTree tp.clientId block
        (removeItemFromTree s.clientIdsTree block.clientId).1 ∧
    (∃ path pid sib j m t2,
      ctxAt (removeItemFromTree s.clientIdsTree block.clientId).1 path =
        some (pid, sib) ∧
      sib.get? j = some m ∧ m.clientId = tp.clientId ∧
      setCtxAt (removeItemFromTree s.clientIdsTree block.clientId).1 path
        (sib.set j (m.withInner (block :: m.innerBlocks))) = some t2 ∧
      (moveItem positions s block translate translateX listPosition v).tree = t2) ∧
    countId (moveItem positions s block translate translateX listPosition v).tree
      block.clientId = 1 := by
  have h2 : ¬((getPos positions (listPosition + 1) = none ∧ ¬v > 0 ∧
      translate > 0) ∨ (listPosition = 0 ∧ v > 0 ∧ translate < 0)) := by
    rintro (⟨-, hnv, ht⟩ | ⟨-, hv2, ht⟩)
    · exact hsign (Or.inr ⟨hnv, ht⟩)
    · exact hsign (Or.inl ⟨hv2, ht⟩)
  have hstate : moveItem positions s block translate translateX listPosition v =
      { s with
        tree := addChildItemToTree tp.clientId block
          (removeItemFromTree s.clientIdsTree block.clientId).1,
        lastTarget := some ⟨block.clientId,
          (removeItemFromTree s.clientIdsTree block.clientId).2,
          tp.clientId, 0⟩ } := by
    simp only [moveItem]
    rw [if_neg hv, if_neg h2, if_neg hsign, if_neg hhalf, if_pos htx, hreg]
    dsimp only
    rw [if_pos htxneg, if_neg ?_, if_pos hcont]
    · rintro (h | h)
      · exact hpid h
      · exact hsib h
  -- tree-side facts
  have hx : block.clientId ∈ idsL s.clientIdsTree :=
    clientId_mem_of_mem_nodesL hblk
  obtain ⟨n0, hn0mem, hn0cid, hperm⟩ := remove_ids_perm hnd hx
  have hn0 : n0 = block := node_eq_of_clientId hnd hn0mem hblk hn0cid
  subst hn0
  have hndsplit : (idsB n0 ++
      idsL (removeItemFromTree s.clientIdsTree n0.clientId).1).Nodup :=
    (hperm.nodup_iff).mp hnd
  obtain ⟨hndB, hndT2, hdisj⟩ := List.nodup_append.mp hndsplit
  have htgt2 : tp.clientId ∈
      idsL (removeItemFromTree s.clientIdsTree n0.clientId).1 := by
    have := (hperm.mem_iff).mp htgt
    rcases List.mem_append.mp this with h | h
    · exact absurd h hnotin
    · exact h
  have hxB : n0.clientId ∈ idsB n0 := by
    cases n0 with
    | mk c d s0 i0 => simp [idsB_mk, Block.clientId_mk]
  have hxnotT2 : n0.clientId ∉
      idsL (removeItemFromTree s.clientIdsTree n0.clientId).1 :=
    fun hc => hdisj hxB hc
  obtain ⟨path, pid, sib, j, m, hctx, hget, hmid⟩ :=
    exists_ctx_of_mem (removeItemFromTree s.clientIdsTree n0.clientId).1 htgt2
  obtain ⟨t2, hset, haddc⟩ := addChild_ctx path
    (removeItemFromTree s.clientIdsTree n0.clientId).1 pid sib j m tp.clientId
    n0 hndT2 hctx hget hmid
  have hcount : countId (addChildItemToTree tp.clientId n0
      (removeItemFromTree s.clientIdsTree n0.clientId).1) n0.clientId = 1 := by
    have hap := @addChild_ids_perm
      (removeItemFromTree s.clientIdsTree n0.clientId).1 tp.clientId n0
      hndT2 htgt2
    rw [countId, hap.count_eq, List.count_append]
    rw [List.count_eq_one_of_mem hndB hxB,
      List.count_eq_zero_of_not_mem hxnotT2]
  refine ⟨by rw [hstate], by rw [hstate], by rw [hstate], ?_, ?_⟩
  · exact ⟨path, pid, sib, j, m, t2, hctx, hget, hmid, hset, by rw [hstate]; exact haddc⟩
  · rw [hstate]
    exact hcount

theorem c1_reparent_left_into_container_witness :
    ((-1 : ℚ) ≠ 0) ∧
    (¬(((-1 : ℚ) > 0 ∧ (-36 : ℚ) < 0) ∨ (¬(-1 : ℚ) > 0 ∧ (-36 : ℚ) > 0))) ∧
    (¬(|(-36 : ℚ)| < 36 / 2)) ∧
    (|(-25 : ℚ)| > 20) ∧
    ((-25 : ℚ) < 0) ∧
    (getPos [((0 : Int), ⟨"p", true, false, ""⟩),
        ((1 : Int), ⟨"q", true, false, "p"⟩),
        ((2 : Int), ⟨"b", false, true, "p"⟩)]
      (if ¬(-1 : ℚ) > 0 then 2 - Int.ceil |(-36 : ℚ) / 36|
       else 2 + Int.ceil |(-36 : ℚ) / 36|) =
      some ⟨"q", true, false, "p"⟩) ∧
    (¬((⟨"q", true, false, "p"⟩ : DropPosition).parentId = "")) ∧
    (¬((⟨"q", true, false, "p"⟩ : DropPosition).dropSibling = true)) ∧
    ((⟨"q", true, false, "p"⟩ : DropPosition).dropContainer = true) ∧
    ((idsL [Block.mk "p" false false [Block.mk "q" true false []],
        Block.mk "b" false false []]).Nodup) ∧
    ((Block.mk "b" false false []) ∈ nodesL [Block.mk "p" false false
        [Block.mk "q" true false []], Block.mk "b" false false []]) ∧
    ((⟨"q", true, false, "p"⟩ : DropPosition).clientId ∈
      idsL [Block.mk "p" false false [Block.mk "q" true false []],
        Block.mk "b" false false []]) ∧
    ((⟨"q", true, false, "p"⟩ : DropPosition).clientId ∉
      idsB (Block.mk "b" false false [])) ∧
    (countId (moveItem [((0 : Int), ⟨"p", true, false, ""⟩),
        ((1 : Int), ⟨"q", true, false, "p"⟩),
        ((2 : Int), ⟨"b", false, true, "p"⟩)]
      ⟨[Block.mk "p" false false [Block.mk "q" true false []],
        Block.mk "b" false false []], [], none⟩
      (Block.mk "b" false false []) (-36) (-25) 2 (-1)).tree
      (Block.mk "b" false false []).clientId = 1) :=
  ⟨by norm_num, by norm_num, by norm_num, by norm_num, by norm_num,
    by
      have h : |(-36 : ℚ) / 36| = 1 := by norm_num
      rw [if_pos (by norm_num), h, Int.ceil_one]
      rfl,
    by decide, by decide, by decide, by simp [idsL], by simp [nodesL],
    by simp [idsL], by simp [idsB_mk, idsL],
    (c1_reparent_left_into_container
      [((0 : Int), ⟨"p", true, false, ""⟩),
        ((1 : Int), ⟨"q", true, false, "p"⟩),
        ((2 : Int), ⟨"b", false, true, "p"⟩)]
      ⟨[Block.mk "p" false false [Block.mk "q" true false []],
        Block.mk "b" false false []], [], none⟩
      (Block.mk "b" false false []) (-36) (-25) 2 (-1) ⟨"q", true, false, "p"⟩
      (by norm_num) (by norm_num) (by norm_num) (by norm_num) (by norm_num)
      (by
        have h : |(-36 : ℚ) / 36| = 1 := by norm_num
        rw [if_pos (by norm_num), h, Int.ceil_one]
        rfl)
      (by decide) (by decide) (by decide) (by simp [idsL]) (by simp [nodesL])
      (by simp [idsL]) (by simp [idsB_mk, idsL])).2.2.2.2⟩

/-- Full characterisation of the `findFirstValidSibling` walk, starting
at an arbitrary index: a successful result is the first qualifying entry
in the walking direction (everything strictly before it along the walk is
populated and non-qualifying), and a `none` result means the walk hit a
missing entry, everything strictly before it being populated and
non-qualifying. -/
theorem siblingWalk_spec (r : Registry) (pid : String) (inc : Bool) :
    ∀ (m : Nat) (idx : Int), dirKeys r inc idx ≤ m →
      (∀ e i, siblingWalk r pid inc idx = some (e, i) →
        ∃ k : Nat, i = idx + k * (if inc then 1 else -1) ∧
          getPos r i = some e ∧ e.dropSibling = true ∧ e.parentId = pid ∧
          ∀ m2 : Nat, m2 < k →
            ∃ q, getPos r (idx + m2 * (if inc then 1 else -1)) = some q ∧
              ¬(q.dropSibling = true ∧ q.parentId = pid)) ∧
      (siblingWalk r pid inc idx = none →
        ∃ k : Nat, getPos r (idx + k * (if inc then 1 else -1)) = none ∧
          ∀ m2 : Nat, m2 < k →
            ∃ q, getPos r (idx + m2 * (if inc then 1 else -1)) = some q ∧
              ¬(q.dropSibling = true ∧ q.parentId = pid)) := by
  intro m
  induction m with
  | zero =>
      intro idx hm
      cases hg : getPos r idx with
      | some p =>
          exfalso
          have := @dirKeys_step r inc idx p hg
          omega
      | none =>
          constructor
          · intro e i hw
            rw [siblingWalk.eq_def] at hw
            split at hw
            · cases hw
            · next p hp => rw [hg] at hp; cases hp
          · intro _
            exact ⟨0, by simpa using hg, by omega⟩
  | succ m ih =>
      intro idx hm
      cases hg : getPos r idx with
      | none =>
          constructor
          · intro e i hw
            rw [siblingWalk.eq_def] at hw
            split at hw
            · cases hw
            · next p hp => rw [hg] at hp; cases hp
          · intro _
            exact ⟨0, by simpa using hg, by omega⟩
      | some p =>
          have hnext : dirKeys r inc (idx + if inc then 1 else -1) ≤ m := by
            have := @dirKeys_step r inc idx p hg
            omega
          have ihn := ih (idx + if inc then 1 else -1) hnext
          by_cases hq : p.dropSibling = true ∧ p.parentId = pid
          · have hw : siblingWalk r pid inc idx = some (p, idx) := by
              rw [siblingWalk.eq_def]
              split
              · next hp => rw [hg] at hp; cases hp
              · next p2 hp =>
                  rw [hg] at hp
                  cases hp
                  rw [if_pos hq]
            constructor
            · intro e i he
              rw [hw] at he
              cases he
              refine ⟨0, by simp, hg, hq.1, hq.2, by omega⟩
            · intro he
              rw [hw] at he
              cases he
          · have hw : siblingWalk r pid inc idx =
                siblingWalk r pid inc (idx + if inc then 1 else -1) := by
              rw [siblingWalk.eq_def]
              split
              · next hp => rw [hg] at hp; cases hp
              · next p2 hp =>
                  rw [hg] at hp
                  cases hp
                  rw [if_neg hq]
            constructor
            · intro e i he
              rw [hw] at he
              obtain ⟨k, hi, hge, hds, hpp, hmid⟩ := ihn.1 e i he
              refine ⟨k + 1, ?_, hge, hds, hpp, ?_⟩
              · rw [hi]
                push_cast
                ring
              · intro m2 hm2
                cases m2 with
                | zero => exact ⟨p, by simpa using hg, hq⟩
                | succ m3 =>
                    obtain ⟨q, hgq, hnq⟩ := hmid m3 (by omega)
                    refine ⟨q, ?_, hnq⟩
                    rw [← hgq]
                    congr 1
                    push_cast
                    ring
            · intro he
              rw [hw] at he
              obtain ⟨k, hge, hmid⟩ := ihn.2 he
              refine ⟨k + 1, ?_, ?_⟩
              · rw [← hge]
                congr 1
                push_cast
                ring
              · intro m2 hm2
                cases m2 with
                | zero => exact ⟨p, by simpa using hg, hq⟩
                | succ m3 =>
                    obtain ⟨q, hgq, hnq⟩ := hmid m3 (by omega)
                    refine ⟨q, ?_, hnq⟩
                    rw [← hgq]
                    congr 1
                    push_cast
                    ring

theorem findFirstValidSibling_eq_walk {r : Registry} {cur : Int} {v : ℚ}
    {cp : DropPosition} (hcur : getPos r cur = some cp) :
    findFirstValidSibling r cur v =
      siblingWalk r cp.parentId (decide (v > 0))
        (cur + if v > 0 then 1 else -1) := by
  simp only [findFirstValidSibling, hcur]

/--
C4: with a populated current entry and a nonzero velocity,
`findFirstValidSibling` walks index-by-index in the direction of the
velocity sign: a non-null result is the first entry in that direction
that is `dropSibling` and shares the current entry's `parentId` (every
strictly earlier index along the walk holds a populated, non-qualifying
entry), together with its index; a null result means the walk reached an
unpopulated index, every strictly earlier index along the walk holding a
populated, non-qualifying entry.
-/
theorem c4_findFirstValidSibling_walk (r : Registry) (cur : Int) (v : ℚ)
    (cp : DropPosition) (hcur : getPos r cur = some cp) (_hv : v ≠ 0) :
    (∀ e i, findFirstValidSibling r cur v = some (e, i) →
      ∃ k : Nat, 1 ≤ k ∧ i = cur + k * (if v > 0 then 1 else -1) ∧
        getPos r i = some e ∧ e.dropSibling = true ∧ e.parentId = cp.parentId ∧
        ∀ m : Nat, 1 ≤ m → m < k →
          ∃ q, getPos r (cur + m * (if v > 0 then 1 else -1)) = some q ∧
            ¬(q.dropSibling = true ∧ q.parentId = cp.parentId)) ∧
    (findFirstValidSibling r cur v = none →
      ∃ k : Nat, 1 ≤ k ∧ getPos r (cur + k * (if v > 0 then 1 else -1)) = none ∧
        ∀ m : Nat, 1 ≤ m → m < k →
          ∃ q, getPos r (cur + m * (if v > 0 then 1 else -1)) = some q ∧
            ¬(q.dropSibling = true ∧ q.parentId = cp.parentId)) := by
  have hiota : ((if decide (v > 0) = true then (1 : Int) else -1)) =
      (if v > 0 then 1 else -1) := by
    by_cases h : v > 0 <;> simp [h]
  have hspec := siblingWalk_spec r cp.parentId (decide (v > 0))
    (dirKeys r (decide (v > 0)) (cur + if v > 0 then 1 else -1))
    (cur + if v > 0 then 1 else -1) (le_refl _)
  rw [hiota] at hspec
  constructor
  · intro e i he
    rw [findFirstValidSibling_eq_walk hcur] at he
    obtain ⟨k, hi, hge, hds, hpp, hmid⟩ := hspec.1 e i he
    refine ⟨k + 1, by omega, ?_, hge, hds, hpp, ?_⟩
    · rw [hi]
      push_cast
      ring
    · intro m h1m hmk
      obtain ⟨q, hgq, hnq⟩ := hmid (m - 1) (by omega)
      refine ⟨q, ?_, hnq⟩
      rw [← hgq]
      congr 1
      have hm1 : ((m - 1 : Nat) : Int) = (m : Int) - 1 := by omega
      rw [hm1]
      ring
  · intro he
    rw [findFirstValidSibling_eq_walk hcur] at he
    obtain ⟨k, hge, hmid⟩ := hspec.2 he
    refine ⟨k + 1, by omega, ?_, ?_⟩
    · rw [← hge]
      congr 1
      push_cast
      ring
    · intro m h1m hmk
      obtain ⟨q, hgq, hnq⟩ := hmid (m - 1) (by omega)
      refine ⟨q, ?_, hnq⟩
      rw [← hgq]
      congr 1
      have hm1 : ((m - 1 : Nat) : Int) = (m : Int) - 1 := by omega
      rw [hm1]
      ring

/--
C10: whenever `findFirstValidSibling` returns a non-null entry, the
returned index is never the starting position itself and lies strictly
in the direction of the velocity sign — even when the entry at the
starting position itself qualifies, since the walk starts one step away.
-/
theorem c10_found_sibling_strictly_in_direction (r : Registry) (cur : Int)
    (v : ℚ) (e : DropPosition) (i : Int) (hv : v ≠ 0)
    (h : findFirstValidSibling r cur v = some (e, i)) :
    i ≠ cur ∧ (v > 0 → cur < i) ∧ (v < 0 → i < cur) := by
  cases hcur : getPos r cur with
  | none => simp [findFirstValidSibling, hcur] at h
  | some cp =>
      have hiota : ((if decide (v > 0) = true then (1 : Int) else -1)) =
          (if v > 0 then 1 else -1) := by
        by_cases hp : v > 0 <;> simp [hp]
      have hspec := siblingWalk_spec r cp.parentId (decide (v > 0))
        (dirKeys r (decide (v > 0)) (cur + if v > 0 then 1 else -1))
        (cur + if v > 0 then 1 else -1) (le_refl _)
      rw [hiota] at hspec
      rw [findFirstValidSibling_eq_walk hcur] at h
      obtain ⟨k, hi, -, -, -, -⟩ := hspec.1 e i h
      by_cases hvp : v > 0
      · rw [if_pos hvp] at hi
        refine ⟨by omega, fun _ => by omega, fun hneg => absurd hvp (by
          intro hc
          linarith)⟩
      · have hvn : v < 0 := lt_of_le_of_ne (le_of_not_lt hvp) hv
        rw [if_neg hvp] at hi
        refine ⟨by omega, fun hpos => absurd hpos hvp, fun _ => by omega⟩

theorem siblingWalk_hit {r : Registry} {pid : String} {inc : Bool} {idx : Int}
    {p : DropPosition} (h : getPos r idx = some p)
    (hq : p.dropSibling = true ∧ p.parentId = pid) :
    siblingWalk r pid inc idx = some (p, idx) := by
  rw [siblingWalk.eq_def]
  split
  · next hp => rw [h] at hp; cases hp
  · next p2 hp =>
      rw [h] at hp
      cases hp
      rw [if_pos hq]

theorem siblingWalk_skip {r : Registry} {pid : String} {inc : Bool} {idx : Int}
    {p : DropPosition} (h : getPos r idx = some p)
    (hq : ¬(p.dropSibling = true ∧ p.parentId = pid)) :
    siblingWalk r pid inc idx =
      siblingWalk r pid inc (idx + if inc then 1 else -1) := by
  rw [siblingWalk.eq_def]
  split
  · next hp => rw [h] at hp; cases hp
  · next p2 hp =>
      rw [h] at hp
      cases hp
      rw [if_neg hq]

theorem c4_findFirstValidSibling_walk_witness :
    (getPos [((0 : Int), ⟨"n0", false, false, "B"⟩),
        ((1 : Int), ⟨"n1", false, true, "A"⟩),
        ((2 : Int), ⟨"n2", false, false, "B"⟩),
        ((3 : Int), ⟨"n3", false, true, "A"⟩),
        ((4 : Int), ⟨"n4", false, false, "B"⟩)] 1 =
      some ⟨"n1", false, true, "A"⟩) ∧
    ((1 : ℚ) ≠ 0) ∧
    (findFirstValidSibling [((0 : Int), ⟨"n0", false, false, "B"⟩),
        ((1 : Int), ⟨"n1", false, true, "A"⟩),
        ((2 : Int), ⟨"n2", false, false, "B"⟩),
        ((3 : Int), ⟨"n3", false, true, "A"⟩),
        ((4 : Int), ⟨"n4", false, false, "B"⟩)] 1 1 =
      some (⟨"n3", false, true, "A"⟩, 3)) ∧
    (∃ k : Nat, 1 ≤ k ∧ (3 : Int) = 1 + k * (if (1 : ℚ) > 0 then 1 else -1) ∧
      (⟨"n3", false, true, "A"⟩ : DropPosition).dropSibling = true ∧
      (⟨"n3", false, true, "A"⟩ : DropPosition).parentId =
        (⟨"n1", false, true, "A"⟩ : DropPosition).parentId) := by
  have hfind : findFirstValidSibling [((0 : Int), ⟨"n0", false, false, "B"⟩),
      ((1 : Int), ⟨"n1", false, true, "A"⟩),
      ((2 : Int), ⟨"n2", false, false, "B"⟩),
      ((3 : Int), ⟨"n3", false, true, "A"⟩),
      ((4 : Int), ⟨"n4", false, false, "B"⟩)] 1 1 =
      some (⟨"n3", false, true, "A"⟩, 3) := by
    rw [@findFirstValidSibling_eq_walk
      [((0 : Int), ⟨"n0", false, false, "B"⟩),
        ((1 : Int), ⟨"n1", false, true, "A"⟩),
        ((2 : Int), ⟨"n2", false, false, "B"⟩),
        ((3 : Int), ⟨"n3", false, true, "A"⟩),
        ((4 : Int), ⟨"n4", false, false, "B"⟩)] 1 1
      ⟨"n1", false, true, "A"⟩ (by rfl)]
    norm_num
    rw [@siblingWalk_skip _ _ _ _ ⟨"n2", false, false, "B"⟩ (by rfl) (by decide)]
    norm_num
    rw [@siblingWalk_hit _ _ _ _ ⟨"n3", false, true, "A"⟩ (by rfl) (by decide)]
  refine ⟨rfl, by norm_num, hfind, ?_⟩
  obtain ⟨k, h1, h2, -, h4, h5, -⟩ :=
    (c4_findFirstValidSibling_walk [((0 : Int), ⟨"n0", false, false, "B"⟩),
      ((1 : Int), ⟨"n1", false, true, "A"⟩),
      ((2 : Int), ⟨"n2", false, false, "B"⟩),
      ((3 : Int), ⟨"n3", false, true, "A"⟩),
      ((4 : Int), ⟨"n4", false, false, "B"⟩)] 1 1 ⟨"n1", false, true, "A"⟩
      rfl (by norm_num)).1 ⟨"n3", false, true, "A"⟩ 3 hfind
  exact ⟨k, h1, h2, h4, h5⟩

theorem c10_found_sibling_strictly_in_direction_witness :
    ((-1 : ℚ) ≠ 0) ∧
    (findFirstValidSibling [((0 : Int), ⟨"n0", false, false, "B"⟩),
        ((1 : Int), ⟨"n1", false, true, "A"⟩),
        ((2 : Int), ⟨"n2", false, false, "B"⟩),
        ((3 : Int), ⟨"n3", false, true, "A"⟩),
        ((4 : Int), ⟨"n4", false, false, "B"⟩)] 3 (-1) =
      some (⟨"n1", false, true, "A"⟩, 1)) ∧
    ((1 : Int) ≠ 3 ∧ ((-1 : ℚ) > 0 → (3 : Int) < 1) ∧
      ((-1 : ℚ) < 0 → (1 : Int) < 3)) := by
  have hfind : findFirstValidSibling [((0 : Int), ⟨"n0", false, false, "B"⟩),
      ((1 : Int), ⟨"n1", false, true, "A"⟩),
      ((2 : Int), ⟨"n2", false, false, "B"⟩),
      ((3 : Int), ⟨"n3", false, true, "A"⟩),
      ((4 : Int), ⟨"n4", false, false, "B"⟩)] 3 (-1) =
      some (⟨"n1", false, true, "A"⟩, 1) := by
    rw [@findFirstValidSibling_eq_walk
      [((0 : Int), ⟨"n0", false, false, "B"⟩),
        ((1 : Int), ⟨"n1", false, true, "A"⟩),
        ((2 : Int), ⟨"n2", false, false, "B"⟩),
        ((3 : Int), ⟨"n3", false, true, "A"⟩),
        ((4 : Int), ⟨"n4", false, false, "B"⟩)] 3 (-1)
      ⟨"n3", false, true, "A"⟩ (by rfl)]
    norm_num
    rw [@siblingWalk_skip _ _ _ _ ⟨"n2", false, false, "B"⟩ (by rfl) (by decide)]
    norm_num
    rw [@siblingWalk_hit _ _ _ _ ⟨"n1", false, true, "A"⟩ (by rfl) (by decide)]
  exact ⟨by norm_num, hfind,
    c10_found_sibling_strictly_in_direction _ 3 (-1) _ 1 (by norm_num) hfind⟩

/-- Induction over tagged forests. -/
theorem jforestInd (P : List JBlock → Prop) (h0 : P [])
    (h1 : ∀ a c d s inner rest, P inner → P rest →
      P (JBlock.mk a c d s inner :: rest)) :
    ∀ t, P t
  | [] => h0
  | .mk a c d s inner :: rest =>
      h1 a c d s inner rest (jforestInd P h0 h1 inner) (jforestInd P h0 h1 rest)

theorem jnodesL_cons (b : JBlock) (rest : List JBlock) :
    jnodesL (b :: rest) = jnodesB b ++ jnodesL rest := by
  cases b
  simp [jnodesL, jnodesB]

theorem JBlock.addr_mk (a : Nat) (c : String) (d s : Bool) (i0 : List JBlock) :
    (JBlock.mk a c d s i0).addr = a := rfl

/-- Every object built by the tagged `removeItemFromTree` is freshly
allocated: its address lies in the window between the entry and exit
values of the allocation counter. -/
theorem removeJAux_fresh :
    ∀ (tree : List JBlock) (id p rp : String) (c : Nat),
      c ≤ (removeJAux id p tree rp c).2.2 ∧
      ∀ n ∈ jnodesL (removeJAux id p tree rp c).1,
        c ≤ n.addr ∧ n.addr < (removeJAux id p tree rp c).2.2 := by
  intro tree
  induction tree using jforestInd with
  | h0 => intro id p rp c; simp [removeJAux, jnodesL]
  | h1 a cid d s inner rest ih1 ih2 =>
      intro id p rp c
      by_cases hid : cid = id
      · simp only [removeJAux, hid, ne_eq, not_true_eq_false, if_false, reduceIte]
        exact ih2 id p p c
      · by_cases hlen : inner.length > 0
        · rcases hci : removeJAux id cid inner "" c with ⟨t1, rp1, c1⟩
          have h1 := ih1 id cid "" c
          rw [hci] at h1
          dsimp only at h1
          rcases hr : removeJAux id p rest
              (if rp1 ≠ "" then rp1 else rp) (c1 + 1) with ⟨t2, rp2, c2⟩
          have h2 := ih2 id p (if rp1 ≠ "" then rp1 else rp) (c1 + 1)
          rw [hr] at h2
          dsimp only at h2
          simp only [removeJAux, hid, ne_eq, not_false_eq_true, if_true, hlen,
            reduceIte, hci, hr]
          constructor
          · omega
          · intro n hn
            rw [jnodesL_cons] at hn
            simp only [jnodesB, List.mem_append, List.mem_cons] at hn
            rcases hn with (rfl | hn1) | hn2
            · simp only [JBlock.addr_mk]
              omega
            · have := h1.2 n hn1
              omega
            · have := h2.2 n hn2
              omega
        · rcases hr : removeJAux id p rest rp (c + 1) with ⟨t2, rp2, c2⟩
          have h2 := ih2 id p rp (c + 1)
          rw [hr] at h2
          dsimp only at h2
          have hinner : inner = [] := by
            cases inner
            · rfl
            · simp at hlen
          subst hinner
          simp only [removeJAux, hid, ne_eq, not_false_eq_true, if_true,
            List.length_nil, gt_iff_lt, lt_self_iff_false, if_false, reduceIte, hr]
          constructor
          · omega
          · intro n hn
            rw [jnodesL_cons] at hn
            simp only [jnodesB, jnodesL, List.mem_append, List.mem_cons,
              List.not_mem_nil, or_false] at hn
            rcases hn with rfl | hn2
            · simp only [JBlock.addr_mk]
              omega
            · have := h2.2 n hn2
              omega

theorem jnodesL_append : ∀ (u w : List JBlock),
    jnodesL (u ++ w) = jnodesL u ++ jnodesL w := by
  intro u w
  induction u using jforestInd with
  | h0 => simp [jnodesL]
  | h1 a c d s inner rest _ ih2 =>
      simp [jnodesL, ih2]

theorem mem_jnodesB_of_inner {n : JBlock} {a : Nat} {cid : String} {d s : Bool}
    {inner : List JBlock} (h : n ∈ jnodesL inner) :
    n ∈ jnodesB (JBlock.mk a cid d s inner) := by
  simp only [jnodesB, List.mem_cons]
  exact Or.inr h

/--
Every object of the output of the tagged `addItemToTree` is either an
object of the accumulator, a freshly allocated copy (address in the
counter window), an object of the input forest (shared subtrees), or an
object of the item (shared subtrees of the item copy).
-/
theorem addJAux_nodes :
    ∀ (tree : List JBlock) (id : String) (item : JBlock) (af : Bool)
      (p : String) (acc : List JBlock) (ti : Int) (ts : String) (c : Nat),
      c ≤ (addJAux id item af p tree acc ti ts c).2.2.2 ∧
      ∀ n ∈ jnodesL (addJAux id item af p tree acc ti ts c).1,
        n ∈ jnodesL acc ∨
        (c ≤ n.addr ∧ n.addr < (addJAux id item af p tree acc ti ts c).2.2.2) ∨
        n ∈ jnodesL tree ∨ n ∈ jnodesB item := by
  intro tree
  induction tree using jforestInd with
  | h0 =>
      intro id item af p acc ti ts c
      refine ⟨by simp [addJAux], ?_⟩
      simp only [addJAux]
      intro n hn
      exact Or.inl hn
  | h1 a cid d s inner rest ih1 ih2 =>
      intro id item af p acc ti ts c
      by_cases hid : cid = id
      · cases af
        · rcases hr : addJAux id item false p rest
            (acc ++ [JBlock.mk c item.clientId item.dropContainer
                item.dropSibling item.innerBlocks,
              JBlock.mk (c + 1) id d s inner])
            (acc.length : Int) p (c + 2) with ⟨t2, ti2, ts2, c2⟩
          have h2 := ih2 id item false p
            (acc ++ [JBlock.mk c item.clientId item.dropContainer
                item.dropSibling item.innerBlocks,
              JBlock.mk (c + 1) id d s inner])
            (acc.length : Int) p (c + 2)
          rw [hr] at h2
          dsimp only at h2
          simp only [addJAux, hid, reduceIte, Bool.false_eq_true, if_false, hr]
          constructor
          · omega
          · intro n hn
            rcases h2.2 n hn with hacc | hfresh | hrest | hitem
            · rw [jnodesL_append, jnodesL_cons, jnodesL_cons] at hacc
              simp only [jnodesL, List.append_nil, List.mem_append,
                List.mem_cons, jnodesB] at hacc
              rcases hacc with h | (rfl | h) | (rfl | h)
              · exact Or.inl h
              · right; left
                simp only [JBlock.addr_mk]
                omega
              · right; right; right
                cases item with
                | mk ia ic idc ids ii =>
                    simp only [jnodesB, List.mem_cons]
                    simp only [JBlock.innerBlocks] at h
                    exact Or.inr h
              · right; left
                simp only [JBlock.addr_mk]
                omega
              · right; right; left
                rw [jnodesL_cons]
                exact List.mem_append_left _ (mem_jnodesB_of_inner h)
            · right; left
              omega
            · right; right; left
              rw [jnodesL_cons]
              exact List.mem_append_right _ hrest
            · right; right; right
              exact hitem
        · rcases hr : addJAux id item true p rest
            (acc ++ [JBlock.mk c id d s inner,
              JBlock.mk (c + 1) item.clientId item.dropContainer
                item.dropSibling item.innerBlocks])
            ((acc.length : Int) + 1) p (c + 2) with ⟨t2, ti2, ts2, c2⟩
          have h2 := ih2 id item true p
            (acc ++ [JBlock.mk c id d s inner,
              JBlock.mk (c + 1) item.clientId item.dropContainer
                item.dropSibling item.innerBlocks])
            ((acc.length : Int) + 1) p (c + 2)
          rw [hr] at h2
          dsimp only at h2
          simp only [addJAux, hid, reduceIte, if_true, hr]
          constructor
          · omega
          · intro n hn
            rcases h2.2 n hn with hacc | hfresh | hrest | hitem
            · rw [jnodesL_append, jnodesL_cons, jnodesL_cons] at hacc
              simp only [jnodesL, List.append_nil, List.mem_append,
                List.mem_cons, jnodesB] at hacc
              rcases hacc with h | (rfl | h) | (rfl | h)
              · exact Or.inl h
              · right; left
                simp only [JBlock.addr_mk]
                omega
              · right; right; left
                rw [jnodesL_cons]
                exact List.mem_append_left _ (mem_jnodesB_of_inner h)
              · right; left
                simp only [JBlock.addr_mk]
                omega
              · right; right; right
                cases item with
                | mk ia ic idc ids ii =>
                    simp only [jnodesB, List.mem_cons]
                    simp only [JBlock.innerBlocks] at h
                    exact Or.inr h
            · right; left
              omega
            · right; right; left
              rw [jnodesL_cons]
              exact List.mem_append_right _ hrest
            · right; right; right
              exact hitem
      · by_cases hlen : inner.length > 0
        · rcases hci : addJAux id item af cid inner [] (-1) "" c
            with ⟨t1, ti1, ts1, c1⟩
          have h1 := ih1 id item af cid [] (-1) "" c
          rw [hci] at h1
          dsimp only at h1
          rcases hr : addJAux id item af p rest
              (acc ++ [JBlock.mk c1 cid d s t1]) (max ti ti1)
              (if ts1 ≠ "" then ts1 else ts) (c1 + 1) with ⟨t2, ti2, ts2, c2⟩
          have h2 := ih2 id item af p (acc ++ [JBlock.mk c1 cid d s t1])
            (max ti ti1) (if ts1 ≠ "" then ts1 else ts) (c1 + 1)
          rw [hr] at h2
          dsimp only at h2
          simp only [addJAux, hid, reduceIte, if_false, hlen, hci, hr]
          constructor
          · omega
          · intro n hn
            rcases h2.2 n hn with hacc | hfresh | hrest | hitem
            · rw [jnodesL_append, jnodesL_cons] at hacc
              simp only [jnodesL, List.append_nil, List.mem_append,
                List.mem_cons, jnodesB] at hacc
              rcases hacc with h | rfl | h
              · exact Or.inl h
              · right; left
                simp only [JBlock.addr_mk]
                omega
              · rcases h1.2 n h with h0 | hfresh1 | hinner | hitem1
                · simp [jnodesL] at h0
                · right; left
                  omega
                · right; right; left
                  rw [jnodesL_cons]
                  exact List.mem_append_left _ (mem_jnodesB_of_inner hinner)
                · right; right; right
                  exact hitem1
            · right; left
              omega
            · right; right; left
              rw [jnodesL_cons]
              exact List.mem_append_right _ hrest
            · right; right; right
              exact hitem
        · have hinner : inner = [] := by
            cases inner
            · rfl
            · simp at hlen
          subst hinner
          rcases hr : addJAux id item af p rest
              (acc ++ [JBlock.mk c cid d s []]) ti ts (c + 1)
            with ⟨t2, ti2, ts2, c2⟩
          have h2 := ih2 id item af p (acc ++ [JBlock.mk c cid d s []]) ti ts (c + 1)
          rw [hr] at h2
          dsimp only at h2
          simp only [addJAux, hid, reduceIte, if_false, List.length_nil,
            gt_iff_lt, lt_self_iff_false, hr]
          constructor
          · omega
          · intro n hn
            rcases h2.2 n hn with hacc | hfresh | hrest | hitem
            · rw [jnodesL_append, jnodesL_cons] at hacc
              simp only [jnodesL, List.append_nil, List.mem_append,
                List.mem_cons, jnodesB, List.not_mem_nil, or_false] at hacc
              rcases hacc with h | rfl
              · exact Or.inl h
              · right; left
                simp only [JBlock.addr_mk]
                omega
            · right; left
              omega
            · right; right; left
              rw [jnodesL_cons]
              exact List.mem_append_right _ hrest
            · right; right; right
              exact hitem

/--
C3 counterexample: the claim "each of the three tree-mutation operations
is pure (returns newly constructed structures and leaves every input
node unchanged)" is false for `addChildItemToTree` at a concrete input:
on the one-node tree `[\x7baddr 0, "a", no children\x7d]` with item
`\x7baddr 1, "x"\x7d`, the returned tree contains an object with the
input node's identity (address 0) whose `innerBlocks` field has changed
— the source's matching branch assigns `block.innerBlocks = [item,
...block.innerBlocks]` on the input object itself.
-/
theorem c3_counterexample_addChild_mutates :
    ¬ PreservesNodes
      (jnodesL [JBlock.mk 0 "a" false false []] ++
        jnodesB (JBlock.mk 1 "x" false false []))
      (jnodesL (addChildJ "a" (JBlock.mk 1 "x" false false [])
        [JBlock.mk 0 "a" false false []] 2).1) := by
  intro h
  have heval : (addChildJ "a" (JBlock.mk 1 "x" false false [])
      [JBlock.mk 0 "a" false false []] 2).1 =
      [JBlock.mk 0 "a" false false [JBlock.mk 1 "x" false false []]] := by
    simp [addChildJ]
  have h2 := h (JBlock.mk 0 "a" false false [JBlock.mk 1 "x" false false []])
    (by rw [heval]; simp [jnodesL])
    (JBlock.mk 0 "a" false false [])
    (by simp [jnodesL, jnodesB])
    (by simp [JBlock.addr_mk])
  simp at h2

/--
C3 amended: of the three tree-mutation operations, `removeItemFromTree`
and `addItemToTree` are pure — no object of the output carries the
identity of an input object with different fields (copies get fresh
identities; shared subtrees are returned unchanged) — but
`insertAsFirstChild` (`addChildItemToTree`) is not: it mutates the
matched node's `innerBlocks` field in place and returns the same object.
-/
theorem c3_amended_remove_add_pure_addChild_not :
    (∀ (tree : List JBlock) (id : String) (c : Nat),
      (∀ n ∈ jnodesL tree, n.addr < c) →
      PreservesNodes (jnodesL tree) (jnodesL (removeJ tree id c).1)) ∧
    (∀ (tree : List JBlock) (id : String) (item : JBlock) (af : Bool) (c : Nat),
      (∀ n ∈ jnodesL tree ++ jnodesB item, n.addr < c) →
      ((jnodesL tree ++ jnodesB item).map JBlock.addr).Nodup →
      PreservesNodes (jnodesL tree ++ jnodesB item)
        (jnodesL (addJ tree id item af c).1)) ∧
    ¬(∀ (tree : List JBlock) (id : String) (item : JBlock) (c : Nat),
      (∀ n ∈ jnodesL tree ++ jnodesB item, n.addr < c) →
      ((jnodesL tree ++ jnodesB item).map JBlock.addr).Nodup →
      PreservesNodes (jnodesL tree ++ jnodesB item)
        (jnodesL (addChildJ id item tree c).1)) := by
  refine ⟨?_, ?_, ?_⟩
  · intro tree id c hb n2 hn2 n hn haddr
    have hfresh := (removeJAux_fresh tree id "" "" c).2 n2 hn2
    have hlt := hb n hn
    omega
  · intro tree id item af c hb hnd n2 hn2 n hn haddr
    rcases (addJAux_nodes tree id item af "" [] (-1) "" c).2 n2 hn2 with
      h0 | hfresh | ht | hi
    · simp [jnodesL] at h0
    · have hlt := hb n hn
      omega
    · exact List.inj_on_of_nodup_map hnd (List.mem_append_left _ ht) hn haddr
    · exact List.inj_on_of_nodup_map hnd (List.mem_append_right _ hi) hn haddr
  · intro h
    have hp := h [JBlock.mk 0 "a" false false []] "a"
      (JBlock.mk 1 "x" false false []) 2
      (by
        intro n hn
        simp only [jnodesL, jnodesB, List.append_nil, List.mem_append,
          List.mem_cons, List.not_mem_nil, or_false] at hn
        rcases hn with rfl | rfl <;> simp [JBlock.addr_mk])
      (by simp [jnodesL, jnodesB, JBlock.addr_mk])
    have heval : (addChildJ "a" (JBlock.mk 1 "x" false false [])
        [JBlock.mk 0 "a" false false []] 2).1 =
        [JBlock.mk 0 "a" false false [JBlock.mk 1 "x" false false []]] := by
      simp [addChildJ]
    have h2 := hp (JBlock.mk 0 "a" false false [JBlock.mk 1 "x" false false []])
      (by rw [heval]; simp [jnodesL])
      (JBlock.mk 0 "a" false false [])
      (by simp [jnodesL, jnodesB])
      (by simp [JBlock.addr_mk])
    simp at h2

theorem c3_amended_remove_add_pure_addChild_not_witness :
    ((∀ n ∈ jnodesL [JBlock.mk 0 "r" false false []], n.addr < 5) ∧
      PreservesNodes (jnodesL [JBlock.mk 0 "r" false false []])
        (jnodesL (removeJ [JBlock.mk 0 "r" false false []] "r" 5).1)) ∧
    ((∀ n ∈ jnodesL [JBlock.mk 0 "r" false false []] ++
        jnodesB (JBlock.mk 1 "x" false false []), n.addr < 5) ∧
      ((jnodesL [JBlock.mk 0 "r" false false []] ++
        jnodesB (JBlock.mk 1 "x" false false [])).map JBlock.addr).Nodup ∧
      PreservesNodes (jnodesL [JBlock.mk 0 "r" false false []] ++
          jnodesB (JBlock.mk 1 "x" false false []))
        (jnodesL (addJ [JBlock.mk 0 "r" false false []] "r"
          (JBlock.mk 1 "x" false false []) true 5).1)) := by
  have hb1 : ∀ n ∈ jnodesL [JBlock.mk 0 "r" false false []], n.addr < 5 := by
    intro n hn
    simp only [jnodesL, List.append_nil, List.mem_cons, List.not_mem_nil,
      or_false] at hn
    subst hn
    simp [JBlock.addr_mk]
  have hb2 : ∀ n ∈ jnodesL [JBlock.mk 0 "r" false false []] ++
      jnodesB (JBlock.mk 1 "x" false false []), n.addr < 5 := by
    intro n hn
    simp only [jnodesL, jnodesB, List.append_nil, List.mem_append,
      List.mem_cons, List.not_mem_nil, or_false] at hn
    rcases hn with rfl | rfl <;> simp [JBlock.addr_mk]
  have hnd2 : ((jnodesL [JBlock.mk 0 "r" false false []] ++
      jnodesB (JBlock.mk 1 "x" false false [])).map JBlock.addr).Nodup := by
    simp [jnodesL, jnodesB, JBlock.addr_mk]
  exact ⟨⟨hb1, (c3_amended_remove_add_pure_addChild_not).1
      [JBlock.mk 0 "r" false false []] "r" 5 hb1⟩,
    ⟨hb2, hnd2, (c3_amended_remove_add_pure_addChild_not).2.1
      [JBlock.mk 0 "r" false false []] "r" (JBlock.mk 1 "x" false false [])
      true 5 hb2 hnd2⟩⟩
